import Mathlib

/-!
# Verification of the memory organization engine

A shallow embedding, in Lean 4, of the core of the Memory-Visualization-System
repository: the byte-budgeted result cache (`src/lib/optimizations/memoryCacheManager.ts`),
the dataset partitioner (`src/lib/optimizations/datasetPartitioner.ts`), the
vector-store clustering layer (`src/lib/vectorStore.ts`: `VectorStore` and
`EnhancedVectorStore`), together with proofs and refutations of the spec's
claims about them.

Modelling conventions:
* JS numbers are modelled as `ℤ` (timestamps, byte counters) and `ℚ`
  (similarities, strengths, centroids).  Transcendental functions used by the
  code (`Math.sqrt`, `Math.exp`, `Math.log`) do not map into `ℚ`; each is
  passed as an explicit function parameter (`sqrtQ`, `expQ`, or a value-scoring
  function) and instantiated in concrete runs at arguments where the real
  function has a rational value (e.g. `sqrt 1 = 1`, `exp 0 = 1`).
* JS `Map`s are modelled as insertion-ordered association lists with the
  `Map.get`/`Map.set`/`Map.delete` operations (`alookup`/`aset`/`aerase`);
  a real `Map` has unique keys, which on the list model is the `Nodup`
  side-condition carried by the invariants.
* `Math.random()` draws are supplied by an explicit oracle `rand : ℕ → ℚ`
  (values in `[0,1)`), so the k-means++ seeding is modelled faithfully for an
  arbitrary random stream.
* Asynchronous methods have no internal suspension points that matter to the
  claims (each claim is stated at a quiescent point), so they are modelled as
  pure state transformers.
-/

namespace MemVis

/-- Vectors (`Float32Array`) are finite sequences of rationals. -/
abbrev Vec := List ℚ

/-! ## Association-list model of JS `Map` -/

/-- Source `Map.get`: first entry with the key. -/
def alookup {κ α : Type} [DecidableEq κ] (k : κ) : List (κ × α) → Option α
  | [] => none
  | (k', v) :: rest => if k' = k then some v else alookup k rest

/-- Source `Map.delete`: remove the (in a real `Map`, unique) entry with the key;
on the list model, the first such entry. -/
def aerase {κ α : Type} [DecidableEq κ] (k : κ) : List (κ × α) → List (κ × α)
  | [] => []
  | (k', v) :: rest => if k' = k then rest else (k', v) :: aerase k rest

/-- Source `Map.set`: update in place (preserving insertion order) or append. -/
def aset {κ α : Type} [DecidableEq κ] (k : κ) (v : α) : List (κ × α) → List (κ × α)
  | [] => [(k, v)]
  | (k', v') :: rest => if k' = k then (k, v) :: rest else (k', v') :: aset k v rest

/-- The keys of an association list, in insertion order. -/
def keysOf {κ α : Type} (l : List (κ × α)) : List κ := l.map Prod.fst

@[simp] theorem keysOf_nil {κ α : Type} : keysOf ([] : List (κ × α)) = [] := rfl

@[simp] theorem keysOf_cons {κ α : Type} (p : κ × α) (l : List (κ × α)) :
    keysOf (p :: l) = p.1 :: keysOf l := rfl

theorem alookup_eq_of_mem_nodup {κ α : Type} [DecidableEq κ] {l : List (κ × α)} {k : κ} {v : α}
    (hnd : (keysOf l).Nodup) (hmem : (k, v) ∈ l) : alookup k l = some v := by
  induction l with
  | nil => cases hmem
  | cons p rest ih =>
    obtain ⟨k', v'⟩ := p
    simp only [keysOf, List.map_cons, List.nodup_cons] at hnd
    rcases List.mem_cons.mp hmem with h | h
    · cases h
      simp [alookup]
    · have hne : k' ≠ k := by
        intro he
        exact hnd.1 (he ▸ (List.mem_map.mpr ⟨(k, v), h, rfl⟩))
      simp only [alookup, if_neg hne]
      exact ih hnd.2 h

theorem perm_cons_aerase {κ α : Type} [DecidableEq κ] {l : List (κ × α)} {k : κ} {v : α}
    (hnd : (keysOf l).Nodup) (hmem : (k, v) ∈ l) : l.Perm ((k, v) :: aerase k l) := by
  induction l with
  | nil => cases hmem
  | cons p rest ih =>
    obtain ⟨k', v'⟩ := p
    simp only [keysOf_cons, List.nodup_cons] at hnd
    rcases List.mem_cons.mp hmem with h | h
    · cases h
      simp [aerase]
    · have hne : k' ≠ k := by
        intro he
        exact hnd.1 (he ▸ (List.mem_map.mpr ⟨(k, v), h, rfl⟩))
      rw [aerase, if_neg hne]
      exact ((ih hnd.2 h).cons _).trans (List.Perm.swap _ _ _)

theorem keysOf_aerase_sublist {κ α : Type} [DecidableEq κ] (k : κ) (l : List (κ × α)) :
    List.Sublist (keysOf (aerase k l)) (keysOf l) := by
  induction l with
  | nil => simp [aerase]
  | cons p rest ih =>
    obtain ⟨k', v'⟩ := p
    by_cases h : k' = k
    · simp only [aerase, if_pos h, keysOf_cons]
      exact List.sublist_cons_self _ _
    · simp only [aerase, if_neg h, keysOf_cons]
      exact ih.cons₂ _

theorem nodup_keys_aerase {κ α : Type} [DecidableEq κ] {l : List (κ × α)} (k : κ)
    (hnd : (keysOf l).Nodup) : (keysOf (aerase k l)).Nodup :=
  (keysOf_aerase_sublist k l).nodup hnd

theorem keysOf_aset_of_mem {κ α : Type} [DecidableEq κ] {l : List (κ × α)} {k : κ} (v : α)
    (hk : k ∈ keysOf l) : keysOf (aset k v l) = keysOf l := by
  induction l with
  | nil => cases hk
  | cons p rest ih =>
    obtain ⟨k', v'⟩ := p
    by_cases h : k' = k
    · simp [aset, if_pos h, h]
    · simp only [keysOf_cons, List.mem_cons] at hk
      rcases hk with hk | hk
      · exact absurd hk.symm h
      · simp only [aset, if_neg h, keysOf_cons]
        rw [ih hk]

theorem keysOf_aset_of_not_mem {κ α : Type} [DecidableEq κ] {l : List (κ × α)} {k : κ} (v : α)
    (hk : k ∉ keysOf l) : keysOf (aset k v l) = keysOf l ++ [k] := by
  induction l with
  | nil => simp [aset]
  | cons p rest ih =>
    obtain ⟨k', v'⟩ := p
    simp only [keysOf_cons, List.mem_cons] at hk
    push_neg at hk
    simp only [aset, if_neg (Ne.symm hk.1), keysOf_cons, List.cons_append]
    rw [ih hk.2]

theorem alookup_aset_self {κ α : Type} [DecidableEq κ] (k : κ) (v : α) (l : List (κ × α)) :
    alookup k (aset k v l) = some v := by
  induction l with
  | nil => simp [aset, alookup]
  | cons p rest ih =>
    obtain ⟨k', v'⟩ := p
    by_cases h : k' = k
    · simp [aset, if_pos h, alookup]
    · simp only [aset, if_neg h, alookup, if_neg h]
      exact ih

theorem alookup_aset_ne {κ α : Type} [DecidableEq κ] {k k' : κ} (hne : k' ≠ k) (v : α) :
    ∀ l : List (κ × α), alookup k' (aset k v l) = alookup k' l
  | [] => by
    simp only [aset, alookup]
    rw [if_neg (fun h : k = k' => hne h.symm)]
  | (k'', v'') :: rest => by
    by_cases h : k'' = k
    · subst h
      simp only [aset, if_pos rfl, alookup]
      rw [if_neg (fun h : k'' = k' => hne h.symm), if_neg (fun h : k'' = k' => hne h.symm)]
    · simp only [aset, if_neg h, alookup]
      by_cases h2 : k'' = k'
      · rw [if_pos h2, if_pos h2]
      · rw [if_neg h2, if_neg h2, alookup_aset_ne hne v rest]

/-! ## Result cache (`MemoryCache`, `src/lib/optimizations/memoryCacheManager.ts`)

The byte-budgeted cache.  Cached payloads are opaque to every operation (only
their computed byte size matters), so entries carry the bookkeeping fields
only; keys (strings in the source) are modelled as `ℕ`. -/

/-- Source `CacheEntry` (without the opaque `data` payload). -/
structure CacheEntry where
  timestamp : ℤ
  lastAccessed : ℤ
  accessCount : ℕ
  size : ℕ
deriving DecidableEq, Repr

/-- Source `CacheConfig`.  `maxEntries` appears in the source config but is never read
by any operation; `cleanupInterval` only schedules the sweep timer, whose firing
we model as an explicit `sweep` operation. -/
structure CacheConfig where
  maxSize : ℤ
  maxEntries : ℕ
  ttl : ℤ
deriving DecidableEq, Repr

/-- The mutable state of a `MemoryCache`: the entry map and `currentSize`. -/
structure CacheState where
  entries : List (ℕ × CacheEntry)
  currentSize : ℤ
deriving DecidableEq, Repr

/-- Constructor state: empty map, `currentSize = 0`. -/
def initCache : CacheState := ⟨[], 0⟩

/-- Sum of the `size` fields of the stored entries. -/
def sumSizes (es : List (ℕ × CacheEntry)) : ℤ :=
  (es.map (fun p => (p.2.size : ℤ))).sum

/-- Source `isExpired`: `Date.now() - entry.timestamp > config.ttl`. -/
def isExpired (cfg : CacheConfig) (now : ℤ) (e : CacheEntry) : Bool :=
  decide (cfg.ttl < now - e.timestamp)

/-- Source `cleanup()`: delete every expired entry and subtract its size. -/
def cacheCleanup (cfg : CacheConfig) (now : ℤ) (s : CacheState) : CacheState :=
  ⟨s.entries.filter (fun p => !isExpired cfg now p.2),
   s.currentSize - sumSizes (s.entries.filter (fun p => isExpired cfg now p.2))⟩

/-- The eviction loop shared by `makeSpace` (LRU order) and `optimize` (value
order): walk the pre-sorted snapshot, and as long as `cond currentSize` holds,
delete the entry from the map and subtract its size. -/
def evictWhile (cond : ℤ → Bool) : List (ℕ × CacheEntry) → CacheState → CacheState
  | [], s => s
  | (k, e) :: rest, s =>
    if cond s.currentSize then
      evictWhile cond rest ⟨aerase k s.entries, s.currentSize - (e.size : ℤ)⟩
    else s

/-- Source `Array.from(entries).sort((a,b) => a[1].lastAccessed - b[1].lastAccessed)`:
stable ascending sort by `lastAccessed`. -/
def sortByLastAccessed (es : List (ℕ × CacheEntry)) : List (ℕ × CacheEntry) :=
  List.insertionSort (fun a b => a.2.lastAccessed ≤ b.2.lastAccessed) es

/-- Source `makeSpace(requiredSize)`: first `cleanup()`, then, if still over budget,
evict least-recently-used entries until the required size fits. -/
def makeSpace (cfg : CacheConfig) (now : ℤ) (requiredSize : ℕ) (s : CacheState) : CacheState :=
  let s1 := cacheCleanup cfg now s
  if cfg.maxSize < s1.currentSize + requiredSize then
    evictWhile (fun cs => decide (cfg.maxSize < cs + requiredSize))
      (sortByLastAccessed s1.entries) s1
  else s1

/-- Source `set(key, value)`.  `size` is the result of `calculateSize(value)` (the
payload is otherwise opaque).  Returns the new state and the accepted flag. -/
def cacheSet (cfg : CacheConfig) (now : ℤ) (k : ℕ) (size : ℕ) (s : CacheState) :
    CacheState × Bool :=
  let s1 := if cfg.maxSize < s.currentSize + size then makeSpace cfg now size s else s
  if cfg.maxSize < s1.currentSize + size then (s1, false)
  else
    let entry : CacheEntry := ⟨now, now, 0, size⟩
    let cs2 : ℤ :=
      match alookup k s1.entries with
      | some old => s1.currentSize - (old.size : ℤ)
      | none => s1.currentSize
    (⟨aset k entry s1.entries, cs2 + size⟩, true)

/-- Source `get(key)`: miss on absent; expired entries are deleted (subtracting their
size) and reported as a miss; hits refresh `lastAccessed`/`accessCount`.
The returned flag is the hit flag. -/
def cacheGet (cfg : CacheConfig) (now : ℤ) (k : ℕ) (s : CacheState) :
    CacheState × Bool :=
  match alookup k s.entries with
  | none => (s, false)
  | some e =>
    if isExpired cfg now e then
      (⟨aerase k s.entries, s.currentSize - (e.size : ℤ)⟩, false)
    else
      (⟨aset k { e with lastAccessed := now, accessCount := e.accessCount + 1 } s.entries,
        s.currentSize⟩, true)

/-- Source `delete(key)`. -/
def cacheDelete (k : ℕ) (s : CacheState) : CacheState × Bool :=
  match alookup k s.entries with
  | some e => (⟨aerase k s.entries, s.currentSize - (e.size : ℤ)⟩, true)
  | none => (s, false)

/-- Source `clear()`. -/
def cacheClear (_ : CacheState) : CacheState := ⟨[], 0⟩

/-- Source `optimize()`: when above 80% occupancy, evict entries in ascending order of
`calculateEntryValue` until occupancy is at most 60%.  The value score uses
`Math.log`, so the scoring function is a parameter; the invariants hold for
every scoring function. -/
def cacheOptimize (cfg : CacheConfig) (value : ℕ × CacheEntry → ℚ) (s : CacheState) :
    CacheState :=
  if (cfg.maxSize : ℚ) * (4/5) < (s.currentSize : ℚ) then
    evictWhile (fun cs => decide ((cfg.maxSize : ℚ) * (3/5) < (cs : ℚ)))
      (List.insertionSort (fun a b => value a ≤ value b) s.entries) s
  else s

/-- One public cache operation (the sweep is the `cleanupInterval` timer). -/
inductive CacheOp where
  | set (key size : ℕ) (now : ℤ)
  | get (key : ℕ) (now : ℤ)
  | del (key : ℕ)
  | clear
  | sweep (now : ℤ)
  | optimize (value : ℕ × CacheEntry → ℚ)

def runCacheOp (cfg : CacheConfig) (s : CacheState) : CacheOp → CacheState
  | .set k size now => (cacheSet cfg now k size s).1
  | .get k now => (cacheGet cfg now k s).1
  | .del k => (cacheDelete k s).1
  | .clear => cacheClear s
  | .sweep now => cacheCleanup cfg now s
  | .optimize value => cacheOptimize cfg value s

def runCacheOps (cfg : CacheConfig) (s : CacheState) (ops : List CacheOp) : CacheState :=
  ops.foldl (runCacheOp cfg) s

/-- The cache bookkeeping invariant: unique keys (as in a real JS `Map`) and
`currentSize` equal to the total of the stored `size` fields. -/
def cacheInv (s : CacheState) : Prop :=
  (keysOf s.entries).Nodup ∧ s.currentSize = sumSizes s.entries

instance (s : CacheState) : Decidable (cacheInv s) := by
  unfold cacheInv; infer_instance

@[simp] theorem sumSizes_nil : sumSizes [] = 0 := rfl

@[simp] theorem sumSizes_cons (p : ℕ × CacheEntry) (l : List (ℕ × CacheEntry)) :
    sumSizes (p :: l) = (p.2.size : ℤ) + sumSizes l := by
  simp [sumSizes]

theorem sumSizes_nonneg (l : List (ℕ × CacheEntry)) : 0 ≤ sumSizes l := by
  induction l with
  | nil => simp
  | cons p rest ih =>
    simp only [sumSizes_cons]
    positivity

theorem sumSizes_filter_split (f : ℕ × CacheEntry → Bool) (l : List (ℕ × CacheEntry)) :
    sumSizes (l.filter f) + sumSizes (l.filter (fun p => !f p)) = sumSizes l := by
  induction l with
  | nil => simp
  | cons p rest ih =>
    by_cases h : f p
    · simp only [List.filter_cons, h, Bool.not_true, sumSizes_cons, if_true]
      simp only [List.filter_cons, h, Bool.not_true] at ih ⊢
      simp only [Bool.false_eq_true, if_false, sumSizes_cons]
      omega
    · simp only [List.filter_cons, Bool.not_eq_true'] at ih ⊢
      simp only [eq_false_of_ne_true h, Bool.not_false, if_false, if_true,
        Bool.false_eq_true, sumSizes_cons]
      omega

theorem sumSizes_aerase {l : List (ℕ × CacheEntry)} {k : ℕ} {e : CacheEntry}
    (h : alookup k l = some e) :
    sumSizes (aerase k l) = sumSizes l - (e.size : ℤ) := by
  induction l with
  | nil => simp [alookup] at h
  | cons p rest ih =>
    obtain ⟨k', v'⟩ := p
    by_cases hk : k' = k
    · simp only [alookup, if_pos hk] at h
      cases h
      simp [aerase, if_pos hk]
    · simp only [alookup, if_neg hk] at h
      simp only [aerase, if_neg hk, sumSizes_cons, ih h]
      ring

theorem sumSizes_aset_none {l : List (ℕ × CacheEntry)} {k : ℕ} (v : CacheEntry)
    (h : alookup k l = none) :
    sumSizes (aset k v l) = sumSizes l + (v.size : ℤ) := by
  induction l with
  | nil => simp [aset]
  | cons p rest ih =>
    obtain ⟨k', v'⟩ := p
    by_cases hk : k' = k
    · simp [alookup, if_pos hk] at h
    · simp only [alookup, if_neg hk] at h
      simp only [aset, if_neg hk, sumSizes_cons, ih h]
      ring

theorem sumSizes_aset_some {l : List (ℕ × CacheEntry)} {k : ℕ} {old : CacheEntry}
    (v : CacheEntry) (h : alookup k l = some old) :
    sumSizes (aset k v l) = sumSizes l - (old.size : ℤ) + (v.size : ℤ) := by
  induction l with
  | nil => simp [alookup] at h
  | cons p rest ih =>
    obtain ⟨k', v'⟩ := p
    by_cases hk : k' = k
    · simp only [alookup, if_pos hk] at h
      cases h
      simp only [aset, if_pos hk, sumSizes_cons]
      ring
    · simp only [alookup, if_neg hk] at h
      simp only [aset, if_neg hk, sumSizes_cons, ih h]
      ring

theorem mem_keys_of_alookup {κ α : Type} [DecidableEq κ] {l : List (κ × α)} {k : κ} {v : α}
    (h : alookup k l = some v) : k ∈ keysOf l := by
  induction l with
  | nil => simp [alookup] at h
  | cons p rest ih =>
    obtain ⟨k', v'⟩ := p
    by_cases hk : k' = k
    · simp [hk]
    · simp only [alookup, if_neg hk] at h
      simp [ih h]

/-- One eviction step: the head of the to-do snapshot is still in the map,
erasing it keeps the invariant, and the snapshot tail stays a permutation. -/
theorem evict_step {k : ℕ} {e : CacheEntry} {rest : List (ℕ × CacheEntry)} {s : CacheState}
    (hinv : cacheInv s) (hperm : ((k, e) :: rest).Perm s.entries) :
    cacheInv ⟨aerase k s.entries, s.currentSize - (e.size : ℤ)⟩ ∧
      rest.Perm (aerase k s.entries) := by
  have hmem : (k, e) ∈ s.entries := hperm.subset (List.mem_cons_self _ _)
  have hlk : alookup k s.entries = some e := alookup_eq_of_mem_nodup hinv.1 hmem
  refine ⟨⟨nodup_keys_aerase k hinv.1, ?_⟩, ?_⟩
  · simp only [sumSizes_aerase hlk, hinv.2]
  · exact (hperm.trans (perm_cons_aerase hinv.1 hmem)).cons_inv

theorem cacheInv_evictWhile (cond : ℤ → Bool) :
    ∀ (todo : List (ℕ × CacheEntry)) (s : CacheState),
      cacheInv s → todo.Perm s.entries → cacheInv (evictWhile cond todo s)
  | [], s, hinv, _ => hinv
  | (k, e) :: rest, s, hinv, hperm => by
    obtain ⟨hinv', hperm'⟩ := evict_step hinv hperm
    unfold evictWhile
    by_cases h : cond s.currentSize
    · rw [if_pos h]
      exact cacheInv_evictWhile cond rest _ hinv' hperm'
    · rw [if_neg h]
      exact hinv

theorem evictWhile_currentSize_le (cond : ℤ → Bool) :
    ∀ (todo : List (ℕ × CacheEntry)) (s : CacheState),
      (evictWhile cond todo s).currentSize ≤ s.currentSize
  | [], s => le_refl _
  | (k, e) :: rest, s => by
    unfold evictWhile
    by_cases h : cond s.currentSize
    · rw [if_pos h]
      refine le_trans (evictWhile_currentSize_le cond rest _) ?_
      simp only
      omega
    · rw [if_neg h]

/-- Under an always-true condition the eviction loop empties the cache. -/
theorem evictWhile_all (cond : ℤ → Bool) (hcond : ∀ cs, 0 ≤ cs → cond cs = true) :
    ∀ (todo : List (ℕ × CacheEntry)) (s : CacheState),
      cacheInv s → todo.Perm s.entries → evictWhile cond todo s = ⟨[], 0⟩
  | [], s, hinv, hperm => by
    have hnil : s.entries = [] := (hperm.symm).eq_nil
    have hcs : s.currentSize = 0 := by rw [hinv.2, hnil]; rfl
    cases s
    simp_all [evictWhile]
  | (k, e) :: rest, s, hinv, hperm => by
    obtain ⟨hinv', hperm'⟩ := evict_step hinv hperm
    have h0 : 0 ≤ s.currentSize := hinv.2 ▸ sumSizes_nonneg s.entries
    unfold evictWhile
    rw [if_pos (hcond _ h0)]
    exact evictWhile_all cond hcond rest _ hinv' hperm'

theorem cacheInv_cleanup (cfg : CacheConfig) (now : ℤ) (s : CacheState)
    (hinv : cacheInv s) : cacheInv (cacheCleanup cfg now s) := by
  constructor
  · exact ((List.filter_sublist _).map Prod.fst).nodup hinv.1
  · have h : sumSizes (s.entries.filter (fun p => isExpired cfg now p.2)) +
        sumSizes (s.entries.filter (fun p => !isExpired cfg now p.2)) =
          sumSizes s.entries :=
      sumSizes_filter_split (fun p => isExpired cfg now p.2) s.entries
    simp only [cacheCleanup, hinv.2]
    omega

theorem cleanup_currentSize_le (cfg : CacheConfig) (now : ℤ) (s : CacheState) :
    (cacheCleanup cfg now s).currentSize ≤ s.currentSize := by
  have := sumSizes_nonneg (s.entries.filter (fun p => isExpired cfg now p.2))
  simp only [cacheCleanup]
  omega

theorem cacheInv_makeSpace (cfg : CacheConfig) (now : ℤ) (req : ℕ) (s : CacheState)
    (hinv : cacheInv s) : cacheInv (makeSpace cfg now req s) := by
  unfold makeSpace
  have h1 := cacheInv_cleanup cfg now s hinv
  by_cases h : cfg.maxSize < (cacheCleanup cfg now s).currentSize + req
  · rw [if_pos h]
    exact cacheInv_evictWhile _ _ _ h1
      (List.perm_insertionSort _ (cacheCleanup cfg now s).entries)
  · rw [if_neg h]
    exact h1

theorem makeSpace_currentSize_le (cfg : CacheConfig) (now : ℤ) (req : ℕ) (s : CacheState) :
    (makeSpace cfg now req s).currentSize ≤ s.currentSize := by
  unfold makeSpace
  by_cases h : cfg.maxSize < (cacheCleanup cfg now s).currentSize + req
  · rw [if_pos h]
    exact le_trans (evictWhile_currentSize_le _ _ _) (cleanup_currentSize_le cfg now s)
  · rw [if_neg h]
    exact cleanup_currentSize_le cfg now s

theorem cacheInv_set (cfg : CacheConfig) (now : ℤ) (k size : ℕ) (s : CacheState)
    (hinv : cacheInv s) : cacheInv (cacheSet cfg now k size s).1 := by
  unfold cacheSet
  set s1 := if cfg.maxSize < s.currentSize + size then makeSpace cfg now size s else s with hs1
  have hinv1 : cacheInv s1 := by
    rw [hs1]
    by_cases h : cfg.maxSize < s.currentSize + size
    · rw [if_pos h]; exact cacheInv_makeSpace cfg now size s hinv
    · rw [if_neg h]; exact hinv
  by_cases h2 : cfg.maxSize < s1.currentSize + size
  · rw [if_pos h2]
    exact hinv1
  · rw [if_neg h2]
    rcases hlk : alookup k s1.entries with _ | old
    · refine ⟨?_, ?_⟩
      · have hk : k ∉ keysOf s1.entries := by
          intro hmem
          obtain ⟨⟨k', v'⟩, hm, he⟩ := List.mem_map.mp hmem
          cases he
          rw [alookup_eq_of_mem_nodup hinv1.1 hm] at hlk
          cases hlk
        rw [keysOf_aset_of_not_mem _ hk]
        simp [List.nodup_append, hinv1.1, hk]
      · simp only [hlk]
        rw [sumSizes_aset_none _ hlk, hinv1.2]
    · refine ⟨?_, ?_⟩
      · rw [keysOf_aset_of_mem _ (mem_keys_of_alookup hlk)]
        exact hinv1.1
      · simp only [hlk]
        rw [sumSizes_aset_some _ hlk, hinv1.2]

theorem cacheInv_get (cfg : CacheConfig) (now : ℤ) (k : ℕ) (s : CacheState)
    (hinv : cacheInv s) : cacheInv (cacheGet cfg now k s).1 := by
  unfold cacheGet
  rcases hlk : alookup k s.entries with _ | e
  · exact hinv
  · by_cases hexp : isExpired cfg now e
    · simp only [hexp, if_true]
      exact ⟨nodup_keys_aerase k hinv.1, by rw [sumSizes_aerase hlk, hinv.2]⟩
    · simp only [hexp, Bool.false_eq_true, if_false]
      refine ⟨?_, ?_⟩
      · rw [keysOf_aset_of_mem _ (mem_keys_of_alookup hlk)]
        exact hinv.1
      · rw [sumSizes_aset_some _ hlk, hinv.2]
        simp

theorem cacheInv_delete (k : ℕ) (s : CacheState) (hinv : cacheInv s) :
    cacheInv (cacheDelete k s).1 := by
  unfold cacheDelete
  rcases hlk : alookup k s.entries with _ | e
  · exact hinv
  · exact ⟨nodup_keys_aerase k hinv.1, by rw [sumSizes_aerase hlk, hinv.2]⟩

theorem cacheInv_optimize (cfg : CacheConfig) (value : ℕ × CacheEntry → ℚ)
    (s : CacheState) (hinv : cacheInv s) : cacheInv (cacheOptimize cfg value s) := by
  unfold cacheOptimize
  by_cases h : (cfg.maxSize : ℚ) * (4/5) < (s.currentSize : ℚ)
  · rw [if_pos h]
    exact cacheInv_evictWhile _ _ _ hinv (List.perm_insertionSort _ s.entries)
  · rw [if_neg h]
    exact hinv

theorem cacheInv_runCacheOp (cfg : CacheConfig) (s : CacheState) (op : CacheOp)
    (hinv : cacheInv s) : cacheInv (runCacheOp cfg s op) := by
  cases op with
  | set k size now => exact cacheInv_set cfg now k size s hinv
  | get k now => exact cacheInv_get cfg now k s hinv
  | del k => exact cacheInv_delete k s hinv
  | clear => exact ⟨List.nodup_nil, rfl⟩
  | sweep now => exact cacheInv_cleanup cfg now s hinv
  | optimize value => exact cacheInv_optimize cfg value s hinv

theorem bound_runCacheOp (cfg : CacheConfig) (s : CacheState) (op : CacheOp)
    (hmax : 0 ≤ cfg.maxSize) (hb : s.currentSize ≤ cfg.maxSize) :
    (runCacheOp cfg s op).currentSize ≤ cfg.maxSize := by
  cases op with
  | set k size now =>
    simp only [runCacheOp]
    unfold cacheSet
    set s1 := if cfg.maxSize < s.currentSize + size then makeSpace cfg now size s else s with hs1
    have hb1 : s1.currentSize ≤ s.currentSize ∨ s1.currentSize ≤ cfg.maxSize := by
      rw [hs1]
      by_cases h : cfg.maxSize < s.currentSize + size
      · rw [if_pos h]; exact Or.inl (makeSpace_currentSize_le cfg now size s)
      · rw [if_neg h]; exact Or.inl (le_refl _)
    by_cases h2 : cfg.maxSize < s1.currentSize + size
    · rw [if_pos h2]
      rcases hb1 with h | h
      · exact le_trans h hb
      · exact h
    · rw [if_neg h2]
      rcases hlk : alookup k s1.entries with _ | old
      · simp only [hlk]
        omega

      · simp only [hlk]
        omega
  | get k now =>
    simp only [runCacheOp]
    unfold cacheGet
    rcases hlk : alookup k s.entries with _ | e
    · exact hb
    · by_cases hexp : isExpired cfg now e
      · simp only [hexp, if_true]
        omega
      · simp only [hexp, Bool.false_eq_true, if_false]
        exact hb
  | del k =>
    simp only [runCacheOp]
    unfold cacheDelete
    rcases hlk : alookup k s.entries with _ | e
    · exact hb
    · simp only
      omega
  | clear => exact hmax
  | sweep now => exact le_trans (cleanup_currentSize_le cfg now s) hb
  | optimize value =>
    simp only [runCacheOp]
    unfold cacheOptimize
    by_cases h : (cfg.maxSize : ℚ) * (4/5) < (s.currentSize : ℚ)
    · rw [if_pos h]
      exact le_trans (evictWhile_currentSize_le _ _ _) hb
    · rw [if_neg h]
      exact hb

theorem cacheInv_bound_runCacheOps (cfg : CacheConfig) (hmax : 0 ≤ cfg.maxSize) :
    ∀ (ops : List CacheOp) (s : CacheState),
      cacheInv s → s.currentSize ≤ cfg.maxSize →
      cacheInv (runCacheOps cfg s ops) ∧ (runCacheOps cfg s ops).currentSize ≤ cfg.maxSize
  | [], s, hinv, hb => ⟨hinv, hb⟩
  | op :: ops, s, hinv, hb =>
    cacheInv_bound_runCacheOps cfg hmax ops (runCacheOp cfg s op)
      (cacheInv_runCacheOp cfg s op hinv) (bound_runCacheOp cfg s op hmax hb)

/-- C2 (confirmed).  For every cache configuration with a non-negative byte
budget and every operation sequence (sets interleaved with gets, deletes,
clears, TTL sweeps and optimize passes) starting from the constructor state,
the sum of the `size` fields of the stored entries never exceeds
`config.maxSize` after any operation completes. -/
theorem cache_budget_never_exceeded (cfg : CacheConfig) (ops : List CacheOp)
    (hmax : 0 ≤ cfg.maxSize) :
    sumSizes (runCacheOps cfg initCache ops).entries ≤ cfg.maxSize := by
  obtain ⟨hinv, hb⟩ := cacheInv_bound_runCacheOps cfg hmax ops initCache
    ⟨List.nodup_nil, rfl⟩ (by simpa [initCache] using hmax)
  rw [← hinv.2]
  exact hb

theorem cache_budget_never_exceeded_witness :
    0 ≤ (10 : ℤ) ∧
      sumSizes (runCacheOps ⟨10, 100, 50⟩ initCache
        [.set 1 4 0, .set 2 9 1, .get 1 2, .del 2, .set 3 6 3, .sweep 60,
         .optimize (fun _ => 0), .clear]).entries ≤ (10 : ℤ) :=
  ⟨by norm_num, cache_budget_never_exceeded _ _ (by norm_num)⟩

/-- C10 (confirmed).  `currentSize` equals the sum of the stored entries'
`size` fields at every quiescent point: every public operation (set with or
without replacement, get including expiry eviction, delete, clear, the TTL
sweep and optimize) preserves the accounting invariant, and every state
reachable from the constructor state satisfies it. -/
theorem cache_currentSize_accounting (cfg : CacheConfig) :
    (∀ (s : CacheState) (op : CacheOp), cacheInv s → cacheInv (runCacheOp cfg s op)) ∧
      (∀ ops : List CacheOp,
        (runCacheOps cfg initCache ops).currentSize =
          sumSizes (runCacheOps cfg initCache ops).entries) := by
  constructor
  · exact fun s op hinv => cacheInv_runCacheOp cfg s op hinv
  · intro ops
    have : ∀ (l : List CacheOp) (s : CacheState), cacheInv s → cacheInv (runCacheOps cfg s l) := by
      intro l
      induction l with
      | nil => exact fun s h => h
      | cons op ops ih => exact fun s h => ih _ (cacheInv_runCacheOp cfg s op h)
    exact (this ops initCache ⟨List.nodup_nil, rfl⟩).2

theorem cache_currentSize_accounting_witness :
    cacheInv (runCacheOp ⟨100, 10, 500⟩ ⟨[(7, ⟨0, 0, 2, 30⟩), (8, ⟨1, 4, 0, 20⟩)], 50⟩
      (.set 7 25 40)) :=
  (cache_currentSize_accounting ⟨100, 10, 500⟩).1 _ _ (by decide)

/-- C3 (corrected), counterexample to the claim as stated.  A `set` whose
computed size (11) exceeds the whole budget (10) does return `false`, but it
does **not** leave the cache unchanged: `makeSpace` first evicts every entry
(the lone fresh entry of size 4 included), so the state afterwards is the
empty cache, not the original one. -/
theorem cache_oversized_set_clears_counterexample :
    (cacheSet ⟨10, 100, 1000⟩ 5 1 11 ⟨[(0, ⟨0, 0, 0, 4⟩)], 4⟩).2 = false ∧
      (cacheSet ⟨10, 100, 1000⟩ 5 1 11 ⟨[(0, ⟨0, 0, 0, 4⟩)], 4⟩).1 ≠
        ⟨[(0, ⟨0, 0, 0, 4⟩)], 4⟩ := by
  constructor
  · rfl
  · decide

/-- C3 (corrected), the amended claim.  For every cache state satisfying the
accounting invariant and every value whose computed size exceeds the total
budget, `set` returns `false` and does not insert the entry — but before
rejecting, `makeSpace` evicts every stored entry (expired ones in the cleanup
pass, the rest in LRU order), so the resulting state is the empty cache, not
the original state. -/
theorem cache_oversized_set_rejects_after_evicting_all
    (cfg : CacheConfig) (now : ℤ) (k size : ℕ) (s : CacheState)
    (hinv : cacheInv s) (hover : cfg.maxSize < (size : ℤ)) :
    cacheSet cfg now k size s = (⟨[], 0⟩, false) := by
  have h0 : 0 ≤ s.currentSize := hinv.2 ▸ sumSizes_nonneg s.entries
  have hinv1 := cacheInv_cleanup cfg now s hinv
  have h1 : 0 ≤ (cacheCleanup cfg now s).currentSize :=
    hinv1.2 ▸ sumSizes_nonneg (cacheCleanup cfg now s).entries
  have hguard0 : cfg.maxSize < s.currentSize + size := by omega
  have hguard1 : cfg.maxSize < (cacheCleanup cfg now s).currentSize + size := by omega
  have hms : makeSpace cfg now size s = ⟨[], 0⟩ := by
    unfold makeSpace
    rw [if_pos hguard1]
    exact evictWhile_all _ (fun cs hcs => by simp only [decide_eq_true_eq]; omega) _ _
      hinv1 (List.perm_insertionSort _ _)
  unfold cacheSet
  rw [if_pos hguard0, hms]
  rw [if_pos (show cfg.maxSize < (CacheState.mk [] 0).currentSize + size by
    simpa using hover)]

theorem cache_oversized_set_rejects_witness :
    cacheInv (⟨[(3, ⟨0, 2, 1, 6⟩), (4, ⟨1, 1, 0, 2⟩)], 8⟩ : CacheState) ∧
      (10 : ℤ) < ((12 : ℕ) : ℤ) ∧
      cacheSet ⟨10, 100, 1000⟩ 7 9 12 ⟨[(3, ⟨0, 2, 1, 6⟩), (4, ⟨1, 1, 0, 2⟩)], 8⟩ =
        (⟨[], 0⟩, false) :=
  ⟨by decide, by norm_num,
    cache_oversized_set_rejects_after_evicting_all _ 7 9 12 _ (by decide) (by norm_num)⟩

/-! ## Memory decay (`EnhancedVectorStore.applyMemoryDecay`, `src/lib/vectorStore.ts`)

`Math.exp` is transcendental, so the exponential is a function parameter
`expQ`; concrete runs use records with `accessCount = 0`, where the real
exponential takes the rational value `exp 0 = 1`. -/

/-- Source `DecayConfig`. -/
structure DecayConfig where
  baseRate : ℚ
  accessBoost : ℚ
  importanceMultiplier : ℚ
  minStrength : ℚ
deriving DecidableEq, Repr

/-- The fields of an `EnhancedMemory` read or written by `applyMemoryDecay`.
`decayRate` is the record's own decay-rate field; note that the code never
reads it. -/
structure DecayMem where
  strength : ℚ
  lastAccessed : ℤ
  accessCount : ℕ
  decayRate : ℚ
  importance : ℚ
deriving DecidableEq, Repr

/-- The `decayAmount` computed by `applyMemoryDecay` for one record:
`baseRate * timeSinceLastAccess / (1000*60*60*24) * accessFactor / importanceFactor`
with `accessFactor = exp(-accessCount * accessBoost)` and
`importanceFactor = importance * importanceMultiplier`. -/
def decayAmount (expQ : ℚ → ℚ) (cfg : DecayConfig) (now : ℤ) (m : DecayMem) : ℚ :=
  cfg.baseRate * ((now - m.lastAccessed : ℤ) : ℚ) / (1000 * 60 * 60 * 24)
    * expQ (-((m.accessCount : ℚ) * cfg.accessBoost))
    / (m.importance * cfg.importanceMultiplier)

/-- The strength written back by one decay pass:
`memory.strength = max(minStrength, strength - decayAmount)`. -/
def applyMemoryDecayOne (expQ : ℚ → ℚ) (cfg : DecayConfig) (now : ℤ) (m : DecayMem) : ℚ :=
  max cfg.minStrength (m.strength - decayAmount expQ cfg now m)

/-- The record after one decay pass (only `strength` changes; records whose
strength reaches the floor are passed to `archiveMemory`, whose
`moveToArchive` body is empty in the source, so they stay live). -/
def applyMemoryDecayMem (expQ : ℚ → ℚ) (cfg : DecayConfig) (now : ℤ) (m : DecayMem) :
    DecayMem :=
  { m with strength := applyMemoryDecayOne expQ cfg now m }

/-- Modelled from the spec: the decay update as the spec sentence words it,
with the *record's own* `decayRate` field as the rate —
`strength -= decayRate · (hoursSinceLastAccess/24) · exp(-accessCount·accessBoost) / (importance·importanceMultiplier)`,
floored at `minStrength`.  Stated only to be compared with the code's
`applyMemoryDecayOne`, which uses the store-wide `config.baseRate` instead. -/
def specDecayStrength (expQ : ℚ → ℚ) (cfg : DecayConfig) (now : ℤ) (m : DecayMem) : ℚ :=
  max cfg.minStrength
    (m.strength -
      m.decayRate * (((now - m.lastAccessed : ℤ) : ℚ) / (1000 * 60 * 60 * 24))
        * expQ (-((m.accessCount : ℚ) * cfg.accessBoost))
        / (m.importance * cfg.importanceMultiplier))

/-- C6 (corrected), counterexample to the claim as stated.  The decay pass
uses the store-wide `decayConfig.baseRate` (0.1), never the record's own
`decayRate` field.  A never-accessed record (`accessCount = 0`, so the
exponential factor is exactly `exp 0 = 1`, modelled by `expQ = fun _ => 1`)
with `decayRate = 1/2`, `importance = 1`, `strength = 1`, one day since last
access, under `baseRate = 1/10`, `importanceMultiplier = 3/2`,
`minStrength = 1/10`: the code yields `max(1/10, 1 - 1/15) = 14/15`, while
the claimed formula yields `max(1/10, 1 - 1/3) = 2/3`. -/
theorem decay_uses_baseRate_counterexample :
    applyMemoryDecayOne (fun _ => 1) ⟨1/10, 1/20, 3/2, 1/10⟩ 86400000
        ⟨1, 0, 0, 1/2, 1⟩ = 14/15 ∧
      specDecayStrength (fun _ => 1) ⟨1/10, 1/20, 3/2, 1/10⟩ 86400000
        ⟨1, 0, 0, 1/2, 1⟩ = 2/3 ∧
      (14/15 : ℚ) ≠ 2/3 := by
  refine ⟨?_, ?_, by norm_num⟩
  · simp only [applyMemoryDecayOne, decayAmount]
    norm_num
  · simp only [specDecayStrength]
    norm_num

/-- C6 (corrected), the amended claim.  One maintenance decay pass updates a
live record's strength to
`max(minStrength, strength - baseRate·(hoursSinceLastAccess/24)·exp(-accessCount·accessBoost)/(importance·importanceMultiplier))`,
where `baseRate` is the store-wide configured rate (the record's own
`decayRate` field is not consulted).  Consequently, for a record with no
accesses (so the exponential factor equals `exp 0 = 1`) whose strength is at
least the floor, and with positive importance factor, non-negative base rate
and non-negative elapsed time, the strength after the pass is non-increasing
and never drops below `minStrength`; both properties re-establish their own
hypotheses, so they hold across successive maintenance runs. -/
theorem decay_update_and_monotonicity (expQ : ℚ → ℚ) (cfg : DecayConfig) (now : ℤ)
    (m : DecayMem) (hexp : expQ 0 = 1) (hacc : m.accessCount = 0)
    (himp : 0 < m.importance * cfg.importanceMultiplier) (hrate : 0 ≤ cfg.baseRate)
    (htime : m.lastAccessed ≤ now) (hfloor : cfg.minStrength ≤ m.strength) :
    applyMemoryDecayOne expQ cfg now m =
        max cfg.minStrength
          (m.strength -
            cfg.baseRate * (((now - m.lastAccessed : ℤ) : ℚ) / (1000 * 60 * 60 * 24))
              / (m.importance * cfg.importanceMultiplier)) ∧
      applyMemoryDecayOne expQ cfg now m ≤ m.strength ∧
      cfg.minStrength ≤ applyMemoryDecayOne expQ cfg now m := by
  have hamt : 0 ≤ decayAmount expQ cfg now m := by
    unfold decayAmount
    rw [hacc]
    simp only [Nat.cast_zero, zero_mul, neg_zero, hexp, mul_one]
    have ht : (0 : ℚ) ≤ ((now - m.lastAccessed : ℤ) : ℚ) := by
      exact_mod_cast Int.sub_nonneg.mpr htime
    positivity
  refine ⟨?_, ?_, le_max_left _ _⟩
  · unfold applyMemoryDecayOne decayAmount
    rw [hacc]
    simp only [Nat.cast_zero, zero_mul, neg_zero, hexp, mul_one]
    ring_nf
  · unfold applyMemoryDecayOne
    exact max_le hfloor (by linarith)

theorem decay_update_and_monotonicity_witness :
    (fun _ : ℚ => (1 : ℚ)) 0 = 1 ∧
      (⟨4/5, 0, 0, 1/20, 1⟩ : DecayMem).accessCount = 0 ∧
      applyMemoryDecayOne (fun _ => 1) ⟨1/10, 1/20, 3/2, 1/10⟩ 43200000
          ⟨4/5, 0, 0, 1/20, 1⟩ ≤ (4/5 : ℚ) ∧
      (1/10 : ℚ) ≤ applyMemoryDecayOne (fun _ => 1) ⟨1/10, 1/20, 3/2, 1/10⟩ 43200000
          ⟨4/5, 0, 0, 1/20, 1⟩ :=
  ⟨rfl, rfl,
    (decay_update_and_monotonicity (fun _ => 1) ⟨1/10, 1/20, 3/2, 1/10⟩ 43200000
      ⟨4/5, 0, 0, 1/20, 1⟩ rfl rfl (by norm_num) (by norm_num) (by norm_num)
      (by norm_num)).2.1,
    (decay_update_and_monotonicity (fun _ => 1) ⟨1/10, 1/20, 3/2, 1/10⟩ 43200000
      ⟨4/5, 0, 0, 1/20, 1⟩ rfl rfl (by norm_num) (by norm_num) (by norm_num)
      (by norm_num)).2.2⟩

/-! ## Similarity search (`VectorStore.findSimilar` post-processing and
`EnhancedVectorStore.findSimilar` / `mergeSearchResults`, `src/lib/vectorStore.ts`)

The raw nearest-neighbour search (`store.searchKnn`) belongs to the external
HNSW index collaborator; each search result is the `(indices, distances)`
pair it returns, and the store's own post-processing pipeline is modelled on
top of those. -/

/-- Source `{ memoryId, similarity }`. -/
structure SimilarityResult where
  memoryId : ℤ
  similarity : ℚ
deriving DecidableEq, Repr

/-- Source `this.metadata.get(index)?.memoryId || -1`: absent metadata gives `-1`,
and JS `||` also coerces a present id `0` to `-1` (0 is falsy). -/
def lookupMemoryId (metadata : List (ℕ × ℤ)) (idx : ℕ) : ℤ :=
  match alookup idx metadata with
  | some mid => if mid = 0 then -1 else mid
  | none => -1

/-- Source `.sort((a, b) => b.similarity - a.similarity)`: descending by similarity. -/
def sortBySimilarityDesc (l : List SimilarityResult) : List SimilarityResult :=
  List.insertionSort (fun a b => b.similarity ≤ a.similarity) l

/-- The post-processing in the base `VectorStore.findSimilar`: translate each
`(index, distance)` pair to `(memoryId, 1 - distance)`, keep results with
`similarity >= threshold`, sort descending. -/
def innerFindSimilar (metadata : List (ℕ × ℤ)) (threshold : ℚ)
    (indices : List ℕ) (distances : List ℚ) : List SimilarityResult :=
  sortBySimilarityDesc
    (((indices.zip distances).map
        (fun p => SimilarityResult.mk (lookupMemoryId metadata p.1) (1 - p.2))).filter
      (fun r => decide (threshold ≤ r.similarity)))

/-- Source `merged.get(r.memoryId) || 0`: JS `||` maps both an absent value and a
stored `0` to `0`. -/
def jsOrZero (o : Option ℚ) : ℚ :=
  match o with
  | some x => if x = 0 then 0 else x
  | none => 0

@[simp] theorem jsOrZero_some (v : ℚ) : jsOrZero (some v) = v := by
  by_cases h : v = 0
  · simp [jsOrZero, h]
  · simp [jsOrZero, h]

@[simp] theorem jsOrZero_none : jsOrZero none = 0 := rfl

/-- The accumulation loop of `mergeSearchResults`:
`merged.set(r.memoryId, Math.max(merged.get(r.memoryId) || 0, r.similarity))`. -/
def mergeFold (acc : List (ℤ × ℚ)) : List SimilarityResult → List (ℤ × ℚ)
  | [] => acc
  | r :: rest =>
    mergeFold (aset r.memoryId (max (jsOrZero (alookup r.memoryId acc)) r.similarity) acc)
      rest

/-- Source `EnhancedVectorStore.mergeSearchResults(results, k)`: merge per-partition
result lists taking a per-id running maximum (clamped below by `0` through
`|| 0`), sort descending, truncate to `k`. -/
def mergeSearchResults (results : List (List SimilarityResult)) (k : ℕ) :
    List SimilarityResult :=
  (sortBySimilarityDesc
      ((mergeFold [] results.flatten).map (fun p => SimilarityResult.mk p.1 p.2))).take k

/-- The cache-miss path of `EnhancedVectorStore.findSimilar`: one
`(indices, distances)` search result per relevant partition, each
post-processed by the base `findSimilar`, then merged. -/
def enhancedFindSimilar (metadata : List (ℕ × ℤ)) (threshold : ℚ) (k : ℕ)
    (searches : List (List ℕ × List ℚ)) : List SimilarityResult :=
  mergeSearchResults
    (searches.map (fun pr => innerFindSimilar metadata threshold pr.1 pr.2)) k

instance : IsTotal SimilarityResult (fun a b => b.similarity ≤ a.similarity) :=
  ⟨fun a b => le_total b.similarity a.similarity⟩

instance : IsTrans SimilarityResult (fun a b => b.similarity ≤ a.similarity) :=
  ⟨fun _ _ _ h1 h2 => le_trans h2 h1⟩

/-- The similarities reported for a given memory id across the per-partition
result lists. -/
def simsFor (id : ℤ) (flat : List SimilarityResult) : List ℚ :=
  (flat.filter (fun r => decide (r.memoryId = id))).map SimilarityResult.similarity

@[simp] theorem simsFor_nil (id : ℤ) : simsFor id [] = [] := rfl

theorem simsFor_cons (id : ℤ) (r : SimilarityResult) (rest : List SimilarityResult) :
    simsFor id (r :: rest) =
      if r.memoryId = id then r.similarity :: simsFor id rest else simsFor id rest := by
  by_cases h : r.memoryId = id
  · simp [simsFor, List.filter_cons, h]
  · simp [simsFor, List.filter_cons, h]

/-- The per-id running maximum computed by the merge loop, as a function of the
previously stored optional value and the remaining similarities for the id. -/
def mval (o : Option ℚ) : List ℚ → Option ℚ
  | [] => o
  | s :: rest => mval (some (max (jsOrZero o) s)) rest

theorem mval_some (v : ℚ) : ∀ sims : List ℚ, mval (some v) sims = some (sims.foldl max v)
  | [] => rfl
  | s :: rest => by
    simp only [mval, jsOrZero_some, List.foldl_cons]
    exact mval_some (max v s) rest

theorem mergeFold_lookup (id : ℤ) :
    ∀ (rs : List SimilarityResult) (acc : List (ℤ × ℚ)),
      alookup id (mergeFold acc rs) = mval (alookup id acc) (simsFor id rs)
  | [], acc => rfl
  | r :: rest, acc => by
    rw [mergeFold, mergeFold_lookup id rest, simsFor_cons]
    by_cases h : r.memoryId = id
    · rw [if_pos h, h, alookup_aset_self, mval]
    · rw [if_neg h, alookup_aset_ne (fun he => h he.symm)]

theorem mergeFold_nodup_keys :
    ∀ (rs : List SimilarityResult) (acc : List (ℤ × ℚ)),
      (keysOf acc).Nodup → (keysOf (mergeFold acc rs)).Nodup
  | [], _, h => h
  | r :: rest, acc, h => by
    rw [mergeFold]
    refine mergeFold_nodup_keys rest _ ?_
    by_cases hk : r.memoryId ∈ keysOf acc
    · rw [keysOf_aset_of_mem _ hk]
      exact h
    · rw [keysOf_aset_of_not_mem _ hk]
      simp [List.nodup_append, h, hk]

theorem le_foldl_max {α : Type} [LinearOrder α] (l : List α) :
    ∀ (a x : α), x ∈ l ∨ x ≤ a → x ≤ l.foldl max a := by
  induction l with
  | nil =>
    intro a x h
    rcases h with h | h
    · cases h
    · exact h
  | cons s rest ih =>
    intro a x h
    rw [List.foldl_cons]
    rcases h with h | h
    · rcases List.mem_cons.mp h with h | h
      · exact ih _ _ (Or.inr (h ▸ le_max_right a s))
      · exact ih _ _ (Or.inl h)
    · exact ih _ _ (Or.inr (le_trans h (le_max_left a s)))

/-- C5 (corrected), counterexample to the claim as stated.  With a negative
threshold (`-1`, i.e. "return everything"), a single partition search whose
one hit has cosine distance `3/2` (similarity `-1/2`, which passes the
filter), the merged result reports similarity `0` for that memory — the
clamp `merged.get(id) || 0` — even though the maximum similarity actually
found for it across the searched partitions is `-1/2`. -/
theorem findSimilar_negative_threshold_counterexample :
    enhancedFindSimilar [(0, 7)] (-1) 5 [([0], [3/2])] =
        [SimilarityResult.mk 7 0] ∧
      simsFor 7 (([([0], [3/2])].map
          (fun pr => innerFindSimilar [(0, 7)] (-1) pr.1 pr.2)).flatten) = [-(1/2)] ∧
      (0 : ℚ) ≠ -(1/2) := by
  refine ⟨?_, ?_, by norm_num⟩ <;>
    norm_num [enhancedFindSimilar, mergeSearchResults, innerFindSimilar,
      sortBySimilarityDesc, List.insertionSort, List.orderedInsert, mergeFold,
      lookupMemoryId, alookup, aset, jsOrZero, simsFor]

/-- C5 (corrected), the amended claim.  For every slot-metadata table,
threshold, `k` and per-partition index search results, the cache-miss path of
`EnhancedVectorStore.findSimilar` returns a list with at most `k` elements,
sorted descending by similarity, in which each memoryId appears at most once;
every reported similarity is `>= threshold`, and the value carried by each id
is `max(0, maximum similarity found for it across the searched partitions)`
(because of the `|| 0` clamp; for thresholds `>= 0` this equals the true
maximum). -/
theorem enhanced_findSimilar_properties (metadata : List (ℕ × ℤ)) (threshold : ℚ)
    (k : ℕ) (searches : List (List ℕ × List ℚ)) :
    (enhancedFindSimilar metadata threshold k searches).length ≤ k ∧
      List.Sorted (fun a b : SimilarityResult => b.similarity ≤ a.similarity)
        (enhancedFindSimilar metadata threshold k searches) ∧
      ((enhancedFindSimilar metadata threshold k searches).map
        SimilarityResult.memoryId).Nodup ∧
      ∀ r ∈ enhancedFindSimilar metadata threshold k searches,
        threshold ≤ r.similarity ∧
          r.similarity =
            (simsFor r.memoryId
              ((searches.map
                (fun pr => innerFindSimilar metadata threshold pr.1 pr.2)).flatten)).foldl
              max 0 := by
  set flat := (searches.map
    (fun pr => innerFindSimilar metadata threshold pr.1 pr.2)).flatten with hflat
  have hthresh : ∀ r ∈ flat, threshold ≤ r.similarity := by
    intro r hr
    rw [hflat] at hr
    obtain ⟨l, hl, hrl⟩ := List.mem_flatten.mp hr
    obtain ⟨pr, _, hpr⟩ := List.mem_map.mp hl
    rw [← hpr] at hrl
    unfold innerFindSimilar sortBySimilarityDesc at hrl
    have := (List.perm_insertionSort
      (fun a b : SimilarityResult => b.similarity ≤ a.similarity) _).subset hrl
    simp only [List.mem_filter, decide_eq_true_eq] at this
    exact this.2
  have hmerged := mergeFold_nodup_keys flat [] List.nodup_nil
  -- the sorted, mapped entry list before truncation
  set entries := (mergeFold [] flat).map (fun p => SimilarityResult.mk p.1 p.2)
    with hentries
  set sorted := sortBySimilarityDesc entries with hsorted
  have hperm : sorted.Perm entries := List.perm_insertionSort _ _
  have hout : enhancedFindSimilar metadata threshold k searches = sorted.take k := rfl
  have hmem_spec : ∀ r ∈ sorted,
      alookup r.memoryId (mergeFold [] flat) = some r.similarity := by
    intro r hr
    have hr2 := hperm.subset hr
    rw [hentries] at hr2
    obtain ⟨⟨id, v⟩, hpv, hpe⟩ := List.mem_map.mp hr2
    cases hpe
    exact alookup_eq_of_mem_nodup hmerged hpv
  refine ⟨?_, ?_, ?_, ?_⟩
  · rw [hout]
    exact List.length_take_le _ _
  · rw [hout]
    refine List.Pairwise.sublist (List.take_sublist _ _) ?_
    exact List.sorted_insertionSort (fun a b : SimilarityResult => b.similarity ≤ a.similarity) _
  · rw [hout]
    refine List.Nodup.sublist ((List.take_sublist _ _).map _) ?_
    have h1 : (entries.map SimilarityResult.memoryId).Nodup := by
      rw [hentries, List.map_map]
      exact hmerged
    exact ((hperm.map SimilarityResult.memoryId).nodup_iff).mpr h1
  · intro r hr
    rw [hout] at hr
    have hr' : r ∈ sorted := List.mem_of_mem_take hr
    have hlk := hmem_spec r hr'
    rw [mergeFold_lookup, alookup] at hlk
    rcases hsims : simsFor r.memoryId flat with _ | ⟨s, rest⟩
    · rw [hsims] at hlk
      cases hlk
    · rw [hsims, mval, jsOrZero_none, mval_some] at hlk
      have hval : r.similarity = ((s :: rest).foldl max 0) := by
        have := hlk
        injection this with h
        rw [← h]
        rfl
      constructor
      · have hs_mem : s ∈ simsFor r.memoryId flat := by rw [hsims]; exact List.mem_cons_self _ _
        obtain ⟨r', hr'mem, hr'eq⟩ :=
          List.mem_map.mp (by unfold simsFor at hs_mem; exact hs_mem)
        have hr'thresh := hthresh r' (List.mem_of_mem_filter hr'mem)
        rw [hval]
        calc threshold ≤ s := hr'eq ▸ hr'thresh
          _ ≤ (s :: rest).foldl max 0 :=
            le_foldl_max _ _ _ (Or.inl (List.mem_cons_self _ _))
      · rw [hval]

/-! ## Dataset partitioner (`DatasetPartitioner`,
`src/lib/optimizations/datasetPartitioner.ts`)

Partition ids are timestamp-based strings in the source
(`partition_${Date.now()}_...`, `merged_${Date.now()}`); we model them as
naturals drawn from a fresh-id counter carried in the state.  `Math.sqrt`
inside `calculateSimilarity`/`calculateDistance` is the `sqrtQ` parameter;
`store.getVector` (the external vector store collaborator) is the `getVec`
parameter; `Math.random` draws are the `rand` oracle, restarted at each
k-means++ seeding. -/

/-- Source `Partition`.  `createdAt`/`lastUpdated` are timestamps never read by any
operation under the claims and are omitted. -/
structure Partition where
  pid : ℕ
  centroid : Vec
  members : List ℤ
  memoryType : ℕ
deriving DecidableEq, Repr

/-- Source `PartitionConfig`. -/
structure PartitionConfig where
  maxPartitionSize : ℕ
  minPartitionSize : ℕ
  similarityThreshold : ℚ
  rebalanceThreshold : ℚ
deriving DecidableEq, Repr

/-- The partitioner's mutable state: the partition map in insertion order plus
the fresh-id source. -/
structure PartitionerState where
  partitions : List Partition
  nextId : ℕ
deriving DecidableEq, Repr

/-- The fields of a memory record the partitioner reads. -/
structure PMemory where
  mid : ℤ
  mtype : ℕ
  vector : Vec
deriving DecidableEq, Repr

/-- Indexing a `Float32Array`; indices are in range in every modelled call. -/
def vecGet (v : Vec) (i : ℕ) : ℚ := v.getD i 0

/-- Source `Math.abs`. -/
def absQ (x : ℚ) : ℚ := if x < 0 then -x else x

/-- The dot product accumulated by `calculateSimilarity` over the configured
dimensionality. -/
def dotProduct (d : ℕ) (v w : Vec) : ℚ :=
  ((List.range d).map (fun i => vecGet v i * vecGet w i)).sum

/-- The squared norm accumulated by `calculateSimilarity`. -/
def normSq (d : ℕ) (v : Vec) : ℚ :=
  ((List.range d).map (fun i => vecGet v i * vecGet v i)).sum

/-- Source `calculateSimilarity`: cosine similarity
`dot / (sqrt(norm1) * sqrt(norm2))`, with `Math.sqrt` as the parameter
`sqrtQ`. -/
def calculateSimilarity (sqrtQ : ℚ → ℚ) (d : ℕ) (v w : Vec) : ℚ :=
  dotProduct d v w / (sqrtQ (normSq d v) * sqrtQ (normSq d w))

/-- Source `calculateDistance` (partitioner): Euclidean distance over the configured
dimensionality. -/
def calcDistP (sqrtQ : ℚ → ℚ) (d : ℕ) (v w : Vec) : ℚ :=
  sqrtQ (((List.range d).map
    (fun i => (vecGet v i - vecGet w i) * (vecGet v i - vecGet w i))).sum)

/-- Source `calculateCentroid` (partitioner): component-wise mean over the configured
dimensionality. -/
def calcCentroid (d : ℕ) (vecs : List Vec) : Vec :=
  (List.range d).map (fun i => ((vecs.map (fun v => vecGet v i)).sum) / vecs.length)

/-- Source `bestSimilarity` starts at `-Infinity`; `none` models it, so the first
comparison `similarity > bestSimilarity` is always true. -/
def betterSim (best : Option ℚ) (s : ℚ) : Bool :=
  match best with
  | none => true
  | some b => decide (b < s)

/-- The candidate loop of `getOptimalPartition`: skip foreign types and full
partitions; keep the best similarity above the threshold. -/
def findBestPartition (simFn : Vec → Vec → ℚ) (cfg : PartitionConfig) (mtype : ℕ)
    (vec : Vec) (parts : List Partition) : Option ℕ × Option ℚ :=
  parts.foldl
    (fun best p =>
      if p.memoryType = mtype ∧ p.members.length < cfg.maxPartitionSize then
        let s := simFn vec p.centroid
        if betterSim best.2 s ∧ cfg.similarityThreshold < s then (some p.pid, some s)
        else best
      else best)
    (none, none)

/-- Source `createNewPartition`: a fresh partition seeded with this single record. -/
def createNewPartition (mem : PMemory) (s : PartitionerState) : ℕ × PartitionerState :=
  (s.nextId,
   ⟨s.partitions ++ [⟨s.nextId, mem.vector, [mem.mid], mem.mtype⟩], s.nextId + 1⟩)

/-- Source `getOptimalPartition`: the best similar partition if one qualifies,
otherwise a fresh one.  Note: when an existing partition is chosen, the record
is *not* added to its `members`. -/
def getOptimalPartition (simFn : Vec → Vec → ℚ) (cfg : PartitionConfig)
    (mem : PMemory) (s : PartitionerState) : ℕ × PartitionerState :=
  match (findBestPartition simFn cfg mem.mtype mem.vector s.partitions).1 with
  | some pid => (pid, s)
  | none => createNewPartition mem s

/-- Source `getRelevantPartitions(query, type)`: for a vector query, the partitions of
the type whose centroid similarity exceeds the threshold; for a non-vector
(string) query — `queryVector` is `null` — every partition of the type. -/
def getRelevantPartitions (simFn : Vec → Vec → ℚ) (cfg : PartitionConfig)
    (query : Option Vec) (mtype : ℕ) (s : PartitionerState) : List ℕ :=
  (s.partitions.filter (fun p =>
      decide (p.memoryType = mtype) &&
        match query with
        | some qv => decide (cfg.similarityThreshold < simFn qv p.centroid)
        | none => true)).map Partition.pid

/-- Source `Map.delete` on the partition map. -/
def pErase (pid : ℕ) : List Partition → List Partition
  | [] => []
  | p :: rest => if p.pid = pid then rest else p :: pErase pid rest

/-- Source `new Set([...])` from a JS array: deduplicate keeping first occurrences. -/
def jsSet (l : List ℤ) : List ℤ :=
  l.foldl (fun acc x => if x ∈ acc then acc else acc ++ [x]) []

/-- Average partition size used by `findImbalancedPartitions`. -/
def avgSize (parts : List Partition) : ℚ :=
  ((parts.map (fun p => (p.members.length : ℚ))).sum) / parts.length

/-- Source `Math.abs(1 - sizeRatio) > rebalanceThreshold`.  When `avg = 0` the JS
ratio is `NaN` (0/0) and the comparison is false; the guard mirrors that. -/
def isImbalanced (cfg : PartitionConfig) (avg : ℚ) (p : Partition) : Bool :=
  if avg = 0 then false
  else decide (cfg.rebalanceThreshold < absQ (1 - (p.members.length : ℚ) / avg))

/-- Source `findImbalancedPartitions`. -/
def findImbalancedPartitions (cfg : PartitionConfig) (s : PartitionerState) :
    List Partition :=
  s.partitions.filter (isImbalanced cfg (avgSize s.partitions))

/-- The best-match loop of `mergePartition` (no threshold inside the loop; the
threshold is applied to the winner afterwards). -/
def findMergeTarget (simFn : Vec → Vec → ℚ) (p : Partition)
    (parts : List Partition) : Option Partition × Option ℚ :=
  parts.foldl
    (fun best o =>
      if o.pid = p.pid then best
      else if o.memoryType ≠ p.memoryType then best
      else
        let s := simFn p.centroid o.centroid
        if betterSim best.2 s then (some o, some s) else best)
    (none, none)

/-- Source `mergePartitions(p1, p2)`: union the member sets, recompute the centroid
from the members' vectors, delete both originals, append the merged
partition under a fresh id. -/
def mergePartitions (d : ℕ) (getVec : ℤ → Vec) (p1 p2 : Partition)
    (s : PartitionerState) : PartitionerState :=
  let mergedMembers := jsSet (p1.members ++ p2.members)
  let centroid := calcCentroid d (mergedMembers.map getVec)
  ⟨pErase p2.pid (pErase p1.pid s.partitions) ++
      [⟨s.nextId, centroid, mergedMembers, p1.memoryType⟩],
   s.nextId + 1⟩

/-- Source `mergePartition(partition)`: merge into the most similar same-type
partition if its similarity exceeds the threshold, else do nothing. -/
def mergePartition (simFn : Vec → Vec → ℚ) (cfg : PartitionConfig) (d : ℕ)
    (getVec : ℤ → Vec) (p : Partition) (s : PartitionerState) : PartitionerState :=
  match findMergeTarget simFn p s.partitions with
  | (some best, some bsim) =>
    if cfg.similarityThreshold < bsim then mergePartitions d getVec p best s else s
  | _ => s

/-- The index-picking loop of k-means++ seeding: accumulate distances until the
running sum reaches the random draw. -/
def pickIndexAux (r : ℚ) : List ℚ → ℚ → ℕ → ℕ
  | [], _, idx => idx
  | dd :: rest, acc, idx =>
    if r ≤ acc + dd then idx else pickIndexAux r rest (acc + dd) (idx + 1)

def pickIndex (ds : List ℚ) (r : ℚ) : ℕ := pickIndexAux r ds 0 0

/-- Source `Math.min(...centroids.map(c => distance(v, c)))`; the empty case
(`Infinity`) is unreachable since the first centroid precedes every call. -/
def minDistTo (dist : Vec → Vec → ℚ) (centroids : List Vec) (v : Vec) : ℚ :=
  match centroids.map (fun c => dist v c) with
  | [] => 0
  | dd :: rest => rest.foldl min dd

/-- Source `initializeCentroids` (k-means++): first pick uniform (`rand 0`), each
further pick proportional to distance to the nearest chosen centroid
(`rand (i+1)` scaled by the distance total). -/
def initializeCentroids (dist : Vec → Vec → ℚ) (rand : ℕ → ℚ)
    (vectors : List Vec) (k : ℕ) : List Vec :=
  let first := vectors.getD (Int.toNat ⌊rand 0 * vectors.length⌋) []
  (List.range (k - 1)).foldl
    (fun cents i =>
      let distances := vectors.map (minDistTo dist cents)
      cents ++ [vectors.getD (pickIndex distances (rand (i + 1) * distances.sum)) []])
    [first]

/-- Source `findNearestCentroid`: running minimum over the centroid array, `Infinity`
as `none`; returns the array index of the winner. -/
def findNearestAux (dist : Vec → Vec → ℚ) (v : Vec) :
    List Vec → ℕ → ℕ → Option ℚ → ℕ
  | [], _, best, _ => best
  | c :: rest, i, best, minD =>
    let dd := dist v c
    if (match minD with | none => true | some m => decide (dd < m)) then
      findNearestAux dist v rest (i + 1) i (some dd)
    else
      findNearestAux dist v rest (i + 1) best minD

def findNearestCentroid (dist : Vec → Vec → ℚ) (v : Vec) (centroids : List Vec) : ℕ :=
  findNearestAux dist v centroids 0 0 none

/-- Modelled from the spec: `createNewPartitionFromMembers` is called by
`splitPartition` but its body is missing from the sources under `src/` (the
partitioner file is cut off after `save`).  Per the spec's `rebalance`
contract ("partitions whose size exceeds maxPartitionSize are split via a
local 2-means pass over their members"), it creates a partition holding the
given member subset, with a centroid computed from their vectors (as
`mergePartitions` does) and a fresh id, keeping the parent's category. -/
def createNewPartitionFromMembers (d : ℕ) (getVec : ℤ → Vec) (mtype : ℕ)
    (members : List ℤ) (s : PartitionerState) : PartitionerState :=
  ⟨s.partitions ++ [⟨s.nextId, calcCentroid d (members.map getVec), members, mtype⟩],
   s.nextId + 1⟩

/-- Source `splitPartition`: one k-means++ seeding with `k = 2`, a single
`assignToCentroids` pass, one new partition per non-empty side, then delete
the original. -/
def splitPartition (sqrtQ : ℚ → ℚ) (rand : ℕ → ℚ) (d : ℕ) (getVec : ℤ → Vec)
    (p : Partition) (s : PartitionerState) : PartitionerState :=
  let members := p.members
  let vectors := members.map getVec
  let centroids := initializeCentroids (calcDistP sqrtQ d) rand vectors 2
  let assignments := vectors.map (fun v => findNearestCentroid (calcDistP sqrtQ d) v centroids)
  let s1 := (List.range 2).foldl
    (fun st i =>
      let newMembers := ((members.zip assignments).filter
        (fun q => decide (q.2 = i))).map Prod.fst
      if 0 < newMembers.length then
        createNewPartitionFromMembers d getVec p.memoryType newMembers st
      else st)
    s
  ⟨pErase p.pid s1.partitions, s1.nextId⟩

/-- Source `rebalancePartition`: split when above the max size, merge when below the
min size, otherwise leave alone. -/
def rebalancePartition (simFn : Vec → Vec → ℚ) (sqrtQ : ℚ → ℚ) (rand : ℕ → ℚ)
    (cfg : PartitionConfig) (d : ℕ) (getVec : ℤ → Vec) (p : Partition)
    (s : PartitionerState) : PartitionerState :=
  if cfg.maxPartitionSize < p.members.length then splitPartition sqrtQ rand d getVec p s
  else if p.members.length < cfg.minPartitionSize then
    mergePartition simFn cfg d getVec p s
  else s

/-- Source `rebalancePartitions(store)`: capture the imbalanced partitions (the
partition *objects*, whose fields are snapshots since no operation mutates a
partition in place), then rebalance each in turn. -/
def rebalancePartitions (simFn : Vec → Vec → ℚ) (sqrtQ : ℚ → ℚ) (rand : ℕ → ℚ)
    (cfg : PartitionConfig) (d : ℕ) (getVec : ℤ → Vec) (s : PartitionerState) :
    PartitionerState :=
  (findImbalancedPartitions cfg s).foldl
    (fun st p => rebalancePartition simFn sqrtQ rand cfg d getVec p st) s

/-- C4 (corrected), counterexample to the claim as stated.  One partition of
the queried category whose centroid `[0,1]` is orthogonal to the query
`[1,0]` (unit vectors, so the code's cosine with `sqrt 1 = 1` is exactly `0`,
below the `7/10` threshold): `getRelevantPartitions` returns the empty list
for this vector query — it does not fall back to all partitions of the
category.  (The all-partitions branch runs only when the query is not a
vector, i.e. a string query.) -/
theorem relevantPartitions_no_fallback_counterexample :
    getRelevantPartitions (calculateSimilarity id 2) ⟨10000, 1000, 7/10, 1/5⟩
        (some [1, 0]) 0 ⟨[⟨0, [0, 1], [5], 0⟩], 1⟩ = [] ∧
      ((⟨[⟨0, [0, 1], [5], 0⟩], 1⟩ : PartitionerState).partitions.filter
        (fun p => decide (p.memoryType = 0))).map Partition.pid = [0] := by
  constructor
  · norm_num [getRelevantPartitions, calculateSimilarity, dotProduct, normSq,
      vecGet, List.filter, List.range_succ]
  · norm_num [List.filter]

/-- C4 (corrected), the amended claim.  For a vector query,
`getRelevantPartitions` returns exactly the partitions of the category whose
centroid similarity exceeds `similarityThreshold` — including the empty list
when none qualifies (no fail-open fallback).  The all-partitions fallback
applies exactly to non-vector (string) queries, where `queryVector` is
`null`. -/
theorem relevantPartitions_characterization (simFn : Vec → Vec → ℚ)
    (cfg : PartitionConfig) (mtype : ℕ) (s : PartitionerState) :
    (∀ (qv : Vec) (pid : ℕ),
      pid ∈ getRelevantPartitions simFn cfg (some qv) mtype s ↔
        ∃ p ∈ s.partitions, p.pid = pid ∧ p.memoryType = mtype ∧
          cfg.similarityThreshold < simFn qv p.centroid) ∧
      (∀ pid : ℕ,
        pid ∈ getRelevantPartitions simFn cfg none mtype s ↔
          ∃ p ∈ s.partitions, p.pid = pid ∧ p.memoryType = mtype) := by
  constructor
  · intro qv pid
    unfold getRelevantPartitions
    simp only [List.mem_map, List.mem_filter, Bool.and_eq_true, decide_eq_true_eq]
    constructor
    · rintro ⟨p, ⟨hp, htype, hsim⟩, hpid⟩
      exact ⟨p, hp, hpid, htype, hsim⟩
    · rintro ⟨p, hp, hpid, htype, hsim⟩
      exact ⟨p, ⟨hp, htype, hsim⟩, hpid⟩
  · intro pid
    unfold getRelevantPartitions
    simp only [List.mem_map, List.mem_filter, Bool.and_eq_true, decide_eq_true_eq,
      Bool.and_true]
    constructor
    · rintro ⟨p, ⟨hp, htype⟩, hpid⟩
      exact ⟨p, hp, hpid, htype⟩
    · rintro ⟨p, hp, hpid, htype⟩
      exact ⟨p, ⟨hp, htype⟩, hpid⟩

/-- C8 (corrected), counterexample to the claim as stated.  Config with
`maxPartitionSize = 4`, `minPartitionSize = 3`, thresholds `7/10` and `1/5`;
three same-category partitions of sizes 1, 1, 3 with identical unit centroids
(`sqrt 1 = 1`, cosine similarity exactly 1).  The first run merges the two
singletons (sizes 1+1), then cascades the second singleton's snapshot into
the big partition, ending with sizes 2 and 4.  The second run — with no
intervening writes — finds the size-2 partition still below
`minPartitionSize` and merges again: the table changes on the second run. -/
theorem rebalance_not_idempotent_counterexample :
    rebalancePartitions (calculateSimilarity id 2) id (fun _ => 0) ⟨4, 3, 7/10, 1/5⟩ 2
        (fun _ => [1, 0])
        ⟨[⟨0, [1, 0], [1], 0⟩, ⟨1, [1, 0], [2], 0⟩, ⟨2, [1, 0], [3, 4, 5], 0⟩], 3⟩ =
      ⟨[⟨3, [1, 0], [1, 2], 0⟩, ⟨4, [1, 0], [2, 3, 4, 5], 0⟩], 5⟩ ∧
    rebalancePartitions (calculateSimilarity id 2) id (fun _ => 0) ⟨4, 3, 7/10, 1/5⟩ 2
        (fun _ => [1, 0]) ⟨[⟨3, [1, 0], [1, 2], 0⟩, ⟨4, [1, 0], [2, 3, 4, 5], 0⟩], 5⟩ =
      ⟨[⟨5, [1, 0], [1, 2, 3, 4, 5], 0⟩], 6⟩ ∧
    (⟨[⟨5, [1, 0], [1, 2, 3, 4, 5], 0⟩], 6⟩ : PartitionerState) ≠
      ⟨[⟨3, [1, 0], [1, 2], 0⟩, ⟨4, [1, 0], [2, 3, 4, 5], 0⟩], 5⟩ := by
  refine ⟨?_, ?_, by decide⟩ <;>
    norm_num [rebalancePartitions, findImbalancedPartitions, isImbalanced, avgSize,
      absQ, rebalancePartition, mergePartition, findMergeTarget, betterSim,
      mergePartitions, jsSet, pErase, calcCentroid, vecGet, calculateSimilarity,
      dotProduct, normSq, List.range_succ, List.filter]

theorem rebalance_fold_noop (simFn : Vec → Vec → ℚ) (sqrtQ : ℚ → ℚ) (rand : ℕ → ℚ)
    (cfg : PartitionConfig) (d : ℕ) (getVec : ℤ → Vec) :
    ∀ (l : List Partition) (s : PartitionerState),
      (∀ p ∈ l, cfg.minPartitionSize ≤ p.members.length ∧
        p.members.length ≤ cfg.maxPartitionSize) →
      l.foldl (fun st p => rebalancePartition simFn sqrtQ rand cfg d getVec p st) s = s
  | [], _, _ => rfl
  | p :: rest, s, h => by
    rw [List.foldl_cons]
    have hb := h p (List.mem_cons_self _ _)
    have hstep : rebalancePartition simFn sqrtQ rand cfg d getVec p s = s := by
      unfold rebalancePartition
      rw [if_neg (by omega), if_neg (by omega)]
    rw [hstep]
    exact rebalance_fold_noop simFn sqrtQ rand cfg d getVec rest s
      (fun q hq => h q (List.mem_cons_of_mem _ hq))

/-- C8 (corrected), the amended claim.  Rebalance is not idempotent in
general: a merge can leave the merged partition still below
`minPartitionSize` (or sizes still imbalanced), so a second run with no
intervening writes may merge further.  What does hold: whenever every
partition's size already lies within `[minPartitionSize, maxPartitionSize]`,
a rebalance run performs no split, merge, creation or deletion at all — so
once a run reaches such a state, every further run without intervening
writes changes nothing. -/
theorem rebalance_noop_when_within_bounds (simFn : Vec → Vec → ℚ) (sqrtQ : ℚ → ℚ)
    (rand : ℕ → ℚ) (cfg : PartitionConfig) (d : ℕ) (getVec : ℤ → Vec)
    (s : PartitionerState)
    (hbounds : ∀ p ∈ s.partitions,
      cfg.minPartitionSize ≤ p.members.length ∧
        p.members.length ≤ cfg.maxPartitionSize) :
    rebalancePartitions simFn sqrtQ rand cfg d getVec s = s := by
  unfold rebalancePartitions
  exact rebalance_fold_noop simFn sqrtQ rand cfg d getVec _ s
    (fun p hp => hbounds p (List.mem_of_mem_filter hp))

theorem rebalance_noop_witness :
    (∀ p ∈ (⟨[⟨0, [1, 0], [1, 2], 0⟩], 1⟩ : PartitionerState).partitions,
      (⟨3, 1, 7/10, 1/5⟩ : PartitionConfig).minPartitionSize ≤ p.members.length ∧
        p.members.length ≤ (⟨3, 1, 7/10, 1/5⟩ : PartitionConfig).maxPartitionSize) ∧
      rebalancePartitions (calculateSimilarity id 2) id (fun _ => 0) ⟨3, 1, 7/10, 1/5⟩
          2 (fun _ => [1, 0]) ⟨[⟨0, [1, 0], [1, 2], 0⟩], 1⟩ =
        ⟨[⟨0, [1, 0], [1, 2], 0⟩], 1⟩ :=
  ⟨by decide,
    rebalance_noop_when_within_bounds _ _ _ _ _ _ _ (by decide)⟩

/-! ## Vector-store clustering (`VectorStore`, `src/lib/vectorStore.ts`)

A single-category model (the per-`MemoryType` structures for one fixed
category; the other categories' stores are empty and untouched by the claims'
operations).  Slot ids are positions in the index (`getCurrentCount()` at
insertion); no modelled operation tombstones a slot, so `getDeletedLabel` is
always false and every slot below `count` is live.  The `isUpdating` /
`pendingUpdates` fields only guard re-entrancy of the (here sequential)
clustering pass and are not modelled; `Math.sqrt` inside
`calculateDistance` is the `sqrtQ` parameter and `Math.random` the `rand`
oracle. -/

/-- Source `ClusterMetadata`, restricted to the fields that any modelled operation
reads back: the centroid and the membership count.  (`averageStrength`,
`dominantEmotions` and `timeRange` are computed from the mocked `getMemory`
— which returns random strengths and fixed emotions — and are never read by
`addMemory`/`mergeClusters`/`splitCluster`/`getClusterMemories`.) -/
structure ClusterMeta where
  centroid : Vec
  size : ℕ
deriving DecidableEq, Repr

/-- Source `VectorSlotMetadata`: `{ memoryId, timestamp }` for the fixed category. -/
structure MetaEntry where
  memoryId : ℤ
  timestamp : ℤ
deriving DecidableEq, Repr

/-- The per-category mutable state of a `VectorStore`.  `clusterTable` is
`this.clusters.get(type)`: `none` when the category has never been clustered
(which the source distinguishes from an empty table). -/
structure StoreState where
  count : ℕ
  slotVectors : List Vec
  metadata : List (ℕ × MetaEntry)
  clusterTable : Option (List (ℕ × ClusterMeta))
  clusterAssignments : List (ℕ × ℕ)
  lastClusterUpdate : ℤ
deriving DecidableEq, Repr

/-- Constructor state (`lastClusterUpdate = Date.now()` at construction). -/
def initStore (t0 : ℤ) : StoreState := ⟨0, [], [], none, [], t0⟩

/-- Source `calculateDistance` (vector store): Euclidean distance over the *first
vector's length* (unlike the partitioner's, which uses the configured
dimensionality). -/
def calcDistV (sqrtQ : ℚ → ℚ) (v w : Vec) : ℚ :=
  sqrtQ (((List.range v.length).map
    (fun i => (vecGet v i - vecGet w i) * (vecGet v i - vecGet w i))).sum)

/-- Source `calculateCentroid` (vector store): component-wise mean over the first
vector's length. -/
def calcCentroidV (vecs : List Vec) : Vec :=
  (List.range (vecs.headD []).length).map
    (fun i => ((vecs.map (fun v => vecGet v i)).sum) / vecs.length)

/-- One k-means assignment pass (`findNearestCentroid` per vector; the stored
assignment array holds JS numbers initialised to `-1`, hence `ℤ`). -/
def kmeansAssign (dist : Vec → Vec → ℚ) (vectors : List Vec) (cents : List Vec) :
    List ℤ :=
  vectors.map (fun v => (findNearestCentroid dist v cents : ℤ))

/-- One centroid-update pass: each non-empty cluster's centroid becomes the
mean of its vectors, empty clusters keep their previous centroid. -/
def kmeansUpdateCentroids (vectors : List Vec) (assigns : List ℤ) (k : ℕ)
    (cents : List Vec) : List Vec :=
  (List.range k).map (fun i =>
    let cvs := ((vectors.zip assigns).filter (fun q => decide (q.2 = Int.ofNat i))).map
      Prod.fst
    if 0 < cvs.length then calcCentroidV cvs else cents.getD i [])

/-- The `while (changed && iteration < maxIterations)` loop. -/
def kmeansLoop (dist : Vec → Vec → ℚ) (vectors : List Vec) (k : ℕ) :
    ℕ → List Vec × List ℤ → List Vec × List ℤ
  | 0, st => st
  | fuel + 1, (cents, assigns) =>
    let newAssigns := kmeansAssign dist vectors cents
    let newCents := kmeansUpdateCentroids vectors newAssigns k cents
    if newAssigns ≠ assigns then kmeansLoop dist vectors k fuel (newCents, newAssigns)
    else (newCents, newAssigns)

/-- Source `kMeansClustering(vectors, k, maxIterations = 100)`. -/
def kMeansClustering (sqrtQ : ℚ → ℚ) (rand : ℕ → ℚ) (vectors : List Vec) (k : ℕ) :
    List Vec × List ℤ :=
  kmeansLoop (calcDistV sqrtQ) vectors k 100
    (initializeCentroids (calcDistV sqrtQ) rand vectors k,
     List.replicate vectors.length (-1))

/-- Source `getClusterMemories(type, clusterId)`: all slots currently assigned to the
cluster id (the source ignores `type` here and scans the whole assignment
map). -/
def getClusterMemories (s : StoreState) (cid : ℕ) : List ℕ :=
  (s.clusterAssignments.filter (fun q => decide (q.2 = cid))).map Prod.fst

/-- Source `calculateClusterMetadata` restricted to the read-back fields: the given
centroid and `size = vectorIds.length`. -/
def calculateClusterMetadata (vectorIds : List ℕ) (centroid : Vec) : ClusterMeta :=
  ⟨centroid, vectorIds.length⟩

/-- Source `Math.max(...clusterMap.keys()) + 1` is computed on non-empty tables in
every modelled use; `maxKey` is the maximum key (0-defaulted, keys are
naturals). -/
def maxKey (t : List (ℕ × ClusterMeta)) : ℕ := (keysOf t).foldl max 0

/-- Source `allMemories.forEach(memId => clusterAssignments.set(memId, newClusterId))`. -/
def setAssignAll (mems : List ℕ) (cid : ℕ) (assigns : List (ℕ × ℕ)) :
    List (ℕ × ℕ) :=
  mems.foldl (fun a m => aset m cid a) assigns

/-- The structural errors thrown by the cluster operations. -/
inductive StoreError
  | noClusters
  | invalidClusterId
  | clusterTooSmall
deriving DecidableEq, Repr

/-- Source `mergeClusters(type, cluster1, cluster2)`; `d` is the store's configured
`dimension`. -/
def mergeClusters (d : ℕ) (s : StoreState) (c1 c2 : ℕ) :
    Except StoreError (StoreState × ℕ) :=
  match s.clusterTable with
  | none => .error .noClusters
  | some table =>
    match alookup c1 table, alookup c2 table with
    | some m1, some m2 =>
      let memories1 := getClusterMemories s c1
      let memories2 := getClusterMemories s c2
      let allMemories := memories1 ++ memories2
      let newCentroid := (List.range d).map (fun i =>
        (vecGet m1.centroid i * memories1.length +
          vecGet m2.centroid i * memories2.length) / allMemories.length)
      let newId := maxKey table + 1
      let newMeta := calculateClusterMetadata allMemories newCentroid
      let assigns := setAssignAll allMemories newId s.clusterAssignments
      let table' := aset newId newMeta (aerase c2 (aerase c1 table))
      .ok ({ s with clusterTable := some table', clusterAssignments := assigns },
        newId)
    | _, _ => .error .invalidClusterId

/-- Source `splitCluster(type, clusterId)`: note there is no check that `clusterId`
exists in the cluster table — only the `< 2` membership check. -/
def splitCluster (sqrtQ : ℚ → ℚ) (rand : ℕ → ℚ) (s : StoreState) (cid : ℕ) :
    Except StoreError (StoreState × (ℕ × ℕ)) :=
  match s.clusterTable with
  | none => .error .noClusters
  | some table =>
    let memories := getClusterMemories s cid
    if memories.length < 2 then .error .clusterTooSmall
    else
      let vectors := memories.map (fun m => s.slotVectors.getD m [])
      let km := kMeansClustering sqrtQ rand vectors 2
      let newId1 := maxKey table + 1
      let newId2 := newId1 + 1
      let assigns := (memories.zip km.2).foldl
        (fun a q => aset q.1 (if q.2 = 0 then newId1 else newId2) a)
        s.clusterAssignments
      let c1mems := ((memories.zip km.2).filter (fun q => decide (q.2 = 0))).map
        Prod.fst
      let c2mems := ((memories.zip km.2).filter (fun q => decide (q.2 = 1))).map
        Prod.fst
      let table' := aset newId2 (calculateClusterMetadata c2mems (km.1.getD 1 []))
        (aset newId1 (calculateClusterMetadata c1mems (km.1.getD 0 []))
          (aerase cid table))
      .ok ({ s with clusterTable := some table', clusterAssignments := assigns },
        (newId1, newId2))

/-- Source `clusterMemories(type, numClusters)`: full k-means over every live slot,
replacing the category's cluster table and merging the new assignments into
the assignment map (in cluster order, as the source's intermediate
`assignments` map is built cluster by cluster). -/
def clusterMemories (sqrtQ : ℚ → ℚ) (rand : ℕ → ℚ) (s : StoreState)
    (numClusters : ℕ) : StoreState :=
  let vectorIds := List.range s.count
  let vectors := vectorIds.map (fun i => s.slotVectors.getD i [])
  if vectors.length = 0 then s
  else
    let km := kMeansClustering sqrtQ rand vectors numClusters
    let clusterMap := (List.range km.1.length).map (fun cid =>
      (cid, calculateClusterMetadata
        (((vectorIds.zip km.2).filter (fun q => decide (q.2 = Int.ofNat cid))).map
          Prod.fst)
        (km.1.getD cid [])))
    let newAssignPairs := ((List.range km.1.length).map (fun cid =>
      (((vectorIds.zip km.2).filter (fun q => decide (q.2 = Int.ofNat cid))).map
        (fun q => (q.1, cid))))).flatten
    let assigns := newAssignPairs.foldl (fun a q => aset q.1 q.2 a)
      s.clusterAssignments
    { s with clusterTable := some clusterMap, clusterAssignments := assigns }

/-- Source `getPendingUpdateCount`: metadata entries newer than the last clustering. -/
def getPendingUpdateCount (s : StoreState) : ℕ :=
  (s.metadata.filter (fun q => decide (s.lastClusterUpdate < q.2.timestamp))).length

/-- Source `incrementalClustering`: when clusters exist, each new vector is assigned
the *index* of its nearest centroid in the table-order centroid array (the
source stores the array index, not the table key), then every cluster's
metadata is recomputed; otherwise a full `clusterMemories` pass runs. -/
def incrementalClustering (sqrtQ : ℚ → ℚ) (rand : ℕ → ℚ) (s : StoreState)
    (newVectorIds : List ℕ) (table : List (ℕ × ClusterMeta)) (numClusters : ℕ) :
    StoreState :=
  if 0 < table.length then
    let centroids := table.map (fun q => q.2.centroid)
    let assigns := newVectorIds.foldl
      (fun a vid =>
        aset vid (findNearestCentroid (calcDistV sqrtQ) (s.slotVectors.getD vid [])
          centroids) a)
      s.clusterAssignments
    let s1 := { s with clusterAssignments := assigns }
    let table' := table.map (fun q =>
      (q.1, calculateClusterMetadata (getClusterMemories s1 q.1) q.2.centroid))
    { s1 with clusterTable := some table' }
  else
    clusterMemories sqrtQ rand s numClusters

/-- Source `updateClusters(type)`: nothing to do without fresh insertions; otherwise
an incremental pass with `k = clamp(floor(sqrt(total/2)), 5, 20)` and a new
`lastClusterUpdate` stamp. -/
def updateClusters (sqrtQ : ℚ → ℚ) (rand : ℕ → ℚ) (now : ℤ) (s : StoreState) :
    StoreState :=
  let newVectors := (s.metadata.filter
    (fun q => decide (s.lastClusterUpdate < q.2.timestamp))).map Prod.fst
  if newVectors.length = 0 then s
  else
    let numClusters := max 5 (min (Nat.sqrt (s.count / 2)) 20)
    let s1 := incrementalClustering sqrtQ rand s newVectors (s.clusterTable.getD [])
      numClusters
    { s1 with lastClusterUpdate := now }

/-- Source `checkClusterUpdate(type)`: fire when pending insertions reach the
threshold (100), a day has passed, or pending/total reaches 10%. -/
def checkClusterUpdate (sqrtQ : ℚ → ℚ) (rand : ℕ → ℚ) (now : ℤ) (s : StoreState) :
    StoreState :=
  let pending := getPendingUpdateCount s
  if 100 ≤ pending ∨ (24 * 60 * 60 * 1000 : ℤ) ≤ now - s.lastClusterUpdate ∨
      (1 / 10 : ℚ) ≤ (pending : ℚ) / (s.count : ℚ) then
    updateClusters sqrtQ rand now s
  else s

/-- Source `VectorStore.addMemory`: append the vector at slot `getCurrentCount()`,
record its metadata, then possibly trigger a clustering pass. -/
def addMemory (sqrtQ : ℚ → ℚ) (rand : ℕ → ℚ) (now : ℤ) (mem : PMemory)
    (s : StoreState) : ℕ × StoreState :=
  let vectorId := s.count
  let s1 : StoreState := { s with
    count := s.count + 1,
    slotVectors := s.slotVectors ++ [mem.vector],
    metadata := aset vectorId ⟨mem.mid, now⟩ s.metadata }
  (vectorId, checkClusterUpdate sqrtQ rand now s1)

/-- C7 (corrected), counterexample to the claim as stated.  A store with one
cluster (id 0) holding two slots: `splitCluster` on the absent cluster id 5
fails with `ClusterTooSmall` ("Cluster too small to split"), not
`InvalidClusterId` — the source performs no id-existence check in
`splitCluster`; an absent id simply has no assigned slots. -/
theorem splitCluster_absent_id_counterexample :
    splitCluster id (fun _ => 0)
        ⟨2, [[1], [1]], [(0, ⟨10, 0⟩), (1, ⟨11, 0⟩)], some [(0, ⟨[1], 2⟩)],
         [(0, 0), (1, 0)], 0⟩ 5 =
      .error .clusterTooSmall ∧
      (StoreError.clusterTooSmall ≠ .invalidClusterId) := by
  exact ⟨rfl, by decide⟩

/-- C7 (corrected), the amended claim.  `mergeClusters(category, idA, idB)`
fails with `InvalidClusterId` when either id is absent from the category's
cluster table (given the table exists — a category never clustered fails
with the distinct `NoClusters` error instead).  `splitCluster(category,
clusterId)` performs no id-existence check: with an id absent from the table
— so that, in any well-formed state, no slot is assigned to it — it fails
with `ClusterTooSmall`, not `InvalidClusterId`.  Neither failure mutates
cluster state: in both operations the failing check precedes every mutation,
and the error carries no new state. -/
theorem merge_split_error_behaviour (sqrtQ : ℚ → ℚ) (rand : ℕ → ℚ) (d : ℕ)
    (s : StoreState) (table : List (ℕ × ClusterMeta)) (c1 c2 cid : ℕ)
    (htable : s.clusterTable = some table)
    (habsent : alookup c1 table = none ∨ alookup c2 table = none)
    (hnoassign : ∀ q ∈ s.clusterAssignments, q.2 ≠ cid) :
    mergeClusters d s c1 c2 = .error .invalidClusterId ∧
      splitCluster sqrtQ rand s cid = .error .clusterTooSmall := by
  constructor
  · unfold mergeClusters
    simp only [htable]
    rcases habsent with h | h
    · rw [h]
    · rw [h]
      rcases alookup c1 table with _ | m1 <;> rfl
  · unfold splitCluster
    simp only [htable]
    have hmem : getClusterMemories s cid = [] := by
      unfold getClusterMemories
      rw [List.filter_eq_nil_iff.mpr]
      · rfl
      · intro q hq
        simpa using hnoassign q hq
    rw [hmem]
    rfl

theorem merge_split_error_behaviour_witness :
    ((⟨2, [[1], [1]], [(0, ⟨10, 0⟩), (1, ⟨11, 0⟩)], some [(0, ⟨[1], 2⟩)],
        [(0, 0), (1, 0)], 0⟩ : StoreState).clusterTable = some [(0, ⟨[1], 2⟩)]) ∧
      (alookup 3 [(0, (⟨[1], 2⟩ : ClusterMeta))] = none ∨
        alookup 0 [(0, (⟨[1], 2⟩ : ClusterMeta))] = none) ∧
      mergeClusters 1
          ⟨2, [[1], [1]], [(0, ⟨10, 0⟩), (1, ⟨11, 0⟩)], some [(0, ⟨[1], 2⟩)],
           [(0, 0), (1, 0)], 0⟩ 3 0 =
        .error .invalidClusterId ∧
      splitCluster id (fun _ => 0)
          ⟨2, [[1], [1]], [(0, ⟨10, 0⟩), (1, ⟨11, 0⟩)], some [(0, ⟨[1], 2⟩)],
           [(0, 0), (1, 0)], 0⟩ 7 =
        .error .clusterTooSmall := by
  have h := merge_split_error_behaviour id (fun _ => 0) 1
    ⟨2, [[1], [1]], [(0, ⟨10, 0⟩), (1, ⟨11, 0⟩)], some [(0, ⟨[1], 2⟩)],
     [(0, 0), (1, 0)], 0⟩ [(0, ⟨[1], 2⟩)] 3 0 7 rfl (Or.inl (by decide))
    (by decide)
  exact ⟨rfl, Or.inl (by decide), h.1, h.2⟩

theorem mem_of_alookup {κ α : Type} [DecidableEq κ] {l : List (κ × α)} {k : κ} {v : α}
    (h : alookup k l = some v) : (k, v) ∈ l := by
  induction l with
  | nil => simp [alookup] at h
  | cons p rest ih =>
    obtain ⟨k', v'⟩ := p
    by_cases hk : k' = k
    · simp only [alookup, if_pos hk] at h
      cases h
      subst hk
      exact List.mem_cons_self _ _
    · simp only [alookup, if_neg hk] at h
      exact List.mem_cons_of_mem _ (ih h)

theorem alookup_eq_none_iff {κ α : Type} [DecidableEq κ] (k : κ) (l : List (κ × α)) :
    alookup k l = none ↔ k ∉ keysOf l := by
  induction l with
  | nil => simp [alookup]
  | cons p rest ih =>
    obtain ⟨k', v'⟩ := p
    by_cases hk : k' = k
    · simp [alookup, if_pos hk, hk]
    · simp only [alookup, if_neg hk, ih, keysOf_cons, List.mem_cons]
      constructor
      · intro h hc
        rcases hc with hc | hc
        · exact hk hc.symm
        · exact h hc
      · intro h hc
        exact h (Or.inr hc)

theorem nodup_keys_aset {κ α : Type} [DecidableEq κ] {l : List (κ × α)} (k : κ) (v : α)
    (h : (keysOf l).Nodup) : (keysOf (aset k v l)).Nodup := by
  by_cases hk : k ∈ keysOf l
  · rw [keysOf_aset_of_mem _ hk]
    exact h
  · rw [keysOf_aset_of_not_mem _ hk]
    simp [List.nodup_append, h, hk]

theorem setAssignAll_lookup (cid : ℕ) :
    ∀ (mems : List ℕ) (a : List (ℕ × ℕ)) (m : ℕ), mems.Nodup →
      alookup m (setAssignAll mems cid a) =
        if m ∈ mems then some cid else alookup m a
  | [], a, m, _ => by simp [setAssignAll]
  | x :: rest, a, m, h => by
    have hnd := List.nodup_cons.mp h
    show alookup m (setAssignAll rest cid (aset x cid a)) = _
    rw [setAssignAll_lookup cid rest _ m hnd.2]
    by_cases hm : m ∈ x :: rest
    · rcases List.mem_cons.mp hm with he | hr
      · subst he
        rw [if_neg hnd.1, if_pos hm, alookup_aset_self]
      · rw [if_pos hr, if_pos hm]
    · have hmx : m ≠ x := fun he => hm (he ▸ List.mem_cons_self _ _)
      have hmr : m ∉ rest := fun hr => hm (List.mem_cons_of_mem _ hr)
      rw [if_neg hmr, if_neg hm, alookup_aset_ne hmx]

theorem nodup_keys_setAssignAll (cid : ℕ) :
    ∀ (mems : List ℕ) (a : List (ℕ × ℕ)),
      (keysOf a).Nodup → (keysOf (setAssignAll mems cid a)).Nodup
  | [], _, h => h
  | x :: rest, a, h =>
    nodup_keys_setAssignAll cid rest (aset x cid a) (nodup_keys_aset x cid h)

theorem splitFold_lookup (newId1 newId2 : ℕ) :
    ∀ (zs : List (ℕ × ℤ)) (a : List (ℕ × ℕ)) (m : ℕ), (keysOf zs).Nodup →
      alookup m (zs.foldl
          (fun acc q => aset q.1 (if q.2 = 0 then newId1 else newId2) acc) a) =
        match alookup m zs with
        | some w => some (if w = 0 then newId1 else newId2)
        | none => alookup m a
  | [], a, m, _ => by simp [alookup]
  | (x, w) :: rest, a, m, h => by
    have hnd := List.nodup_cons.mp (by simpa using h)
    show alookup m (rest.foldl _ (aset x (if w = 0 then newId1 else newId2) a)) = _
    rw [splitFold_lookup newId1 newId2 rest _ m hnd.2]
    by_cases hmx : x = m
    · subst hmx
      have hrest : alookup x rest = none :=
        (alookup_eq_none_iff x rest).mpr hnd.1
      rw [hrest]
      simp only [alookup, if_pos rfl, alookup_aset_self, if_true]
    · simp only [alookup, if_neg hmx]
      cases hr : alookup m rest with
      | some v => rfl
      | none => rw [alookup_aset_ne (fun he => hmx he.symm)]

theorem nodup_keys_splitFold (newId1 newId2 : ℕ) :
    ∀ (zs : List (ℕ × ℤ)) (a : List (ℕ × ℕ)),
      (keysOf a).Nodup →
      (keysOf (zs.foldl
        (fun acc q => aset q.1 (if q.2 = 0 then newId1 else newId2) acc) a)).Nodup
  | [], _, h => h
  | (x, w) :: rest, a, h =>
    nodup_keys_splitFold newId1 newId2 rest _ (nodup_keys_aset x _ h)

theorem kmeansLoop_assign_length (dist : Vec → Vec → ℚ) (vectors : List Vec) (k : ℕ) :
    ∀ (fuel : ℕ) (st : List Vec × List ℤ), st.2.length = vectors.length →
      (kmeansLoop dist vectors k fuel st).2.length = vectors.length
  | 0, _, h => h
  | fuel + 1, (cents, assigns), _ => by
    have hlen : (kmeansAssign dist vectors cents).length = vectors.length := by
      simp [kmeansAssign]
    rw [kmeansLoop]
    by_cases hch : kmeansAssign dist vectors cents ≠ assigns
    · rw [if_pos hch]
      exact kmeansLoop_assign_length dist vectors k fuel _ hlen
    · rw [if_neg hch]
      exact hlen

theorem kMeans_assign_length (sqrtQ : ℚ → ℚ) (rand : ℕ → ℚ) (vectors : List Vec)
    (k : ℕ) : (kMeansClustering sqrtQ rand vectors k).2.length = vectors.length :=
  kmeansLoop_assign_length _ _ _ 100 _ (by simp)

theorem mem_getClusterMemories {s : StoreState} {cid m : ℕ}
    (hnd : (keysOf s.clusterAssignments).Nodup) :
    m ∈ getClusterMemories s cid ↔ alookup m s.clusterAssignments = some cid := by
  unfold getClusterMemories
  constructor
  · intro hm
    obtain ⟨⟨m', v⟩, hmem, he⟩ := List.mem_map.mp hm
    cases he
    have h2 := List.mem_filter.mp hmem
    have hv : v = cid := by simpa using h2.2
    subst hv
    exact alookup_eq_of_mem_nodup hnd h2.1
  · intro hl
    exact List.mem_map.mpr
      ⟨(m, cid), List.mem_filter.mpr ⟨mem_of_alookup hl, by simp⟩, rfl⟩

theorem nodup_getClusterMemories (s : StoreState) (cid : ℕ)
    (hnd : (keysOf s.clusterAssignments).Nodup) :
    (getClusterMemories s cid).Nodup := by
  refine List.Nodup.sublist ?_ hnd
  unfold getClusterMemories keysOf
  exact List.Sublist.map Prod.fst
    (List.filter_sublist (p := fun q => decide (q.2 = cid)) s.clusterAssignments)

theorem le_maxKey {t : List (ℕ × ClusterMeta)} {k : ℕ} (h : k ∈ keysOf t) :
    k ≤ maxKey t :=
  le_foldl_max _ _ _ (Or.inl h)

/-- C9 (confirmed).  In any well-formed store state (cluster table present
with duplicate-free keys, assignment map with duplicate-free keys, every
assigned cluster id present in the table), for any two distinct existing
clusters whose combined live membership has at least 2 members,
`mergeClusters` succeeds with a fresh cluster id, `splitCluster` on that id
succeeds, and the combined membership of the two resulting clusters is a
permutation of the union of the two pre-merge memberships (same members,
same total size — though not necessarily the original grouping, which
depends on the k-means oracle). -/
theorem merge_then_split_membership (sqrtQ : ℚ → ℚ) (rand : ℕ → ℚ) (d : ℕ)
    (s : StoreState) (table : List (ℕ × ClusterMeta)) (c1 c2 : ℕ)
    (htable : s.clusterTable = some table)
    (htnd : (keysOf table).Nodup)
    (hand : (keysOf s.clusterAssignments).Nodup)
    (hwf : ∀ q ∈ s.clusterAssignments, q.2 ∈ keysOf table)
    (hc1 : (alookup c1 table).isSome = true)
    (hc2 : (alookup c2 table).isSome = true)
    (hne : c1 ≠ c2)
    (hsize : 2 ≤ (getClusterMemories s c1).length + (getClusterMemories s c2).length) :
    ∃ (s1 : StoreState) (nid : ℕ) (s2 : StoreState) (ab : ℕ × ℕ),
      mergeClusters d s c1 c2 = .ok (s1, nid) ∧
        splitCluster sqrtQ rand s1 nid = .ok (s2, ab) ∧
        (getClusterMemories s2 ab.1 ++ getClusterMemories s2 ab.2).Perm
          (getClusterMemories s c1 ++ getClusterMemories s c2) := by
  obtain ⟨m1, hm1⟩ := Option.isSome_iff_exists.mp hc1
  obtain ⟨m2, hm2⟩ := Option.isSome_iff_exists.mp hc2
  -- pre-merge memberships
  set mems1 := getClusterMemories s c1 with hdefmems1
  set mems2 := getClusterMemories s c2 with hdefmems2
  set mems := mems1 ++ mems2 with hdefmems
  set nid := maxKey table + 1 with hdefnid
  -- the two pre-merge memberships are disjoint, so `mems` has no duplicates
  have hmemsNodup : mems.Nodup := by
    rw [hdefmems]
    refine List.nodup_append.mpr ⟨nodup_getClusterMemories s c1 hand,
      nodup_getClusterMemories s c2 hand, ?_⟩
    intro m hm1' hm2'
    have h1 := (mem_getClusterMemories hand).mp hm1'
    have h2 := (mem_getClusterMemories hand).mp hm2'
    rw [h1] at h2
    exact hne (Option.some_injective _ h2)
  -- assigned cluster ids are bounded by the table's maximal key, so `nid` is fresh
  have hbound : ∀ (m v : ℕ), alookup m s.clusterAssignments = some v → v ≤ maxKey table := by
    intro m v hl
    exact le_maxKey (hwf (m, v) (mem_of_alookup hl))
  set newCentroid := (List.range d).map (fun i =>
    (vecGet m1.centroid i * mems1.length +
      vecGet m2.centroid i * mems2.length) / mems.length) with hdefcentroid
  set assigns1 := setAssignAll mems nid s.clusterAssignments with hdefassigns1
  set table1 := aset nid (calculateClusterMetadata mems newCentroid)
    (aerase c2 (aerase c1 table)) with hdeftable1
  set s1 : StoreState :=
    ({ s with clusterTable := some table1, clusterAssignments := assigns1 } :
      StoreState) with hdefs1
  have hmergeEq : mergeClusters d s c1 c2 = .ok (s1, nid) := by
    unfold mergeClusters
    simp only [htable, hm1, hm2]
  -- lookups after the merge
  have hlookup1 : ∀ m : ℕ, alookup m assigns1 =
      if m ∈ mems then some nid else alookup m s.clusterAssignments := by
    intro m
    rw [hdefassigns1, setAssignAll_lookup nid mems s.clusterAssignments m hmemsNodup]
  have hand1 : (keysOf assigns1).Nodup := nodup_keys_setAssignAll nid mems _ hand
  -- the merged cluster's membership equals `mems` as a set
  have hmem1 : ∀ m : ℕ, m ∈ getClusterMemories s1 nid ↔ m ∈ mems := by
    intro m
    rw [mem_getClusterMemories (s := s1) hand1]
    show alookup m assigns1 = some nid ↔ _
    rw [hlookup1 m]
    by_cases hm : m ∈ mems
    · simp [hm]
    · simp only [if_neg hm, iff_false, hm]
      intro hl
      have := hbound m nid hl
      omega
  have hmems'Nodup : (getClusterMemories s1 nid).Nodup :=
    nodup_getClusterMemories s1 nid hand1
  have hperm' : (getClusterMemories s1 nid).Perm mems :=
    (List.perm_ext_iff_of_nodup hmems'Nodup hmemsNodup).mpr hmem1
  have hlen' : (getClusterMemories s1 nid).length = mems.length := hperm'.length_eq
  have hnotsmall : ¬ (getClusterMemories s1 nid).length < 2 := by
    rw [hlen', hdefmems, List.length_append]
    omega
  -- the split
  set mems' := getClusterMemories s1 nid with hdefmems'
  set vectors := mems'.map (fun m => s1.slotVectors.getD m []) with hdefvectors
  set km := kMeansClustering sqrtQ rand vectors 2 with hdefkm
  set a := maxKey table1 + 1 with hdefa
  set zs := mems'.zip km.2 with hdefzs
  set assigns2 := zs.foldl
    (fun acc q => aset q.1 (if q.2 = 0 then a else a + 1) acc) assigns1 with hdefassigns2
  set c1mems := (zs.filter (fun q => decide (q.2 = 0))).map Prod.fst with hdefc1m
  set c2mems := (zs.filter (fun q => decide (q.2 = 1))).map Prod.fst with hdefc2m
  set table2 := aset (a + 1) (calculateClusterMetadata c2mems (km.1.getD 1 []))
    (aset a (calculateClusterMetadata c1mems (km.1.getD 0 []))
      (aerase nid table1)) with hdeftable2
  set s2 : StoreState :=
    ({ s1 with clusterTable := some table2, clusterAssignments := assigns2 } :
      StoreState) with hdefs2
  have hsplitEq : splitCluster sqrtQ rand s1 nid = .ok (s2, (a, a + 1)) := by
    unfold splitCluster
    have ht1 : s1.clusterTable = some table1 := rfl
    simp only [ht1, if_neg hnotsmall]
  -- `nid` is a key of `table1`, so the two split ids exceed every assigned value
  have hnidkey : nid ∈ keysOf table1 := by
    rw [hdeftable1]
    have hnotin : nid ∉ keysOf (aerase c2 (aerase c1 table)) := by
      intro hin
      have h1 : nid ∈ keysOf table :=
        (keysOf_aerase_sublist c2 _).subset hin |>
          fun h => (keysOf_aerase_sublist c1 table).subset h
      have := le_maxKey h1
      omega
    rw [keysOf_aset_of_not_mem _ hnotin]
    simp
  have hnidle : nid ≤ maxKey table1 := le_maxKey hnidkey
  have hbound1 : ∀ (m v : ℕ), alookup m assigns1 = some v → v < a := by
    intro m v hl
    rw [hlookup1 m] at hl
    by_cases hm : m ∈ mems
    · rw [if_pos hm] at hl
      cases hl
      omega
    · rw [if_neg hm] at hl
      have := hbound m v hl
      omega
  -- keys of the zip are exactly `mems'`
  have hkmlen : km.2.length = vectors.length := kMeans_assign_length sqrtQ rand vectors 2
  have hzskeys : keysOf zs = mems' := by
    rw [hdefzs, keysOf]
    exact List.map_fst_zip _ _ (by rw [hkmlen, hdefvectors, List.length_map])
  have hzsnodup : (keysOf zs).Nodup := by rw [hzskeys]; exact hmems'Nodup
  have hlookup2 : ∀ m : ℕ, alookup m assigns2 =
      match alookup m zs with
      | some w => some (if w = 0 then a else a + 1)
      | none => alookup m assigns1 := by
    intro m
    rw [hdefassigns2]
    exact splitFold_lookup a (a + 1) zs assigns1 m hzsnodup
  have hand2 : (keysOf assigns2).Nodup := nodup_keys_splitFold a (a + 1) zs _ hand1
  -- membership in the two split clusters
  have hmem2 : ∀ m : ℕ,
      (m ∈ getClusterMemories s2 a ∨ m ∈ getClusterMemories s2 (a + 1)) ↔ m ∈ mems' := by
    intro m
    rw [mem_getClusterMemories (s := s2) hand2, mem_getClusterMemories (s := s2) hand2]
    show (alookup m assigns2 = some a ∨ alookup m assigns2 = some (a + 1)) ↔ _
    rw [hlookup2 m]
    by_cases hm : m ∈ mems'
    · have : ∃ w, alookup m zs = some w := by
        cases hz : alookup m zs with
        | none =>
          exact absurd ((alookup_eq_none_iff m zs).mp hz) (by rw [hzskeys]; exact fun h => h hm)
        | some w => exact ⟨w, rfl⟩
      obtain ⟨w, hw⟩ := this
      rw [hw]
      by_cases hw0 : w = 0
      · simp [hw0, hm]
      · simp [hw0, hm]
    · have hz : alookup m zs = none := by
        rw [alookup_eq_none_iff, hzskeys]
        exact hm
      rw [hz]
      simp only [iff_false, hm]
      intro hcon
      rcases hcon with hl | hl
      · have := hbound1 m a hl
        omega
      · have := hbound1 m (a + 1) hl
        omega
  -- both split memberships are disjoint and duplicate-free
  have hlhsNodup : (getClusterMemories s2 a ++ getClusterMemories s2 (a + 1)).Nodup := by
    refine List.nodup_append.mpr ⟨nodup_getClusterMemories s2 a hand2,
      nodup_getClusterMemories s2 (a + 1) hand2, ?_⟩
    intro m hma hmb
    have h1 := (mem_getClusterMemories (s := s2) hand2).mp hma
    have h2 := (mem_getClusterMemories (s := s2) hand2).mp hmb
    rw [h1] at h2
    have := Option.some_injective _ h2
    omega
  refine ⟨s1, nid, s2, (a, a + 1), hmergeEq, hsplitEq, ?_⟩
  refine (List.perm_ext_iff_of_nodup hlhsNodup hmemsNodup).mpr ?_
  intro m
  rw [List.mem_append, List.mem_append]
  rw [hmem2 m, hmem1 m]
  exact List.mem_append

theorem merge_then_split_membership_witness :
    ((⟨2, [[1], [1]], [(0, ⟨10, 0⟩), (1, ⟨11, 0⟩)],
        some [(0, ⟨[1], 1⟩), (1, ⟨[1], 1⟩)], [(0, 0), (1, 1)], 0⟩ : StoreState).clusterTable =
      some [(0, ⟨[1], 1⟩), (1, ⟨[1], 1⟩)]) ∧
      (0 : ℕ) ≠ 1 ∧
      2 ≤ (getClusterMemories
            ⟨2, [[1], [1]], [(0, ⟨10, 0⟩), (1, ⟨11, 0⟩)],
             some [(0, ⟨[1], 1⟩), (1, ⟨[1], 1⟩)], [(0, 0), (1, 1)], 0⟩ 0).length +
          (getClusterMemories
            ⟨2, [[1], [1]], [(0, ⟨10, 0⟩), (1, ⟨11, 0⟩)],
             some [(0, ⟨[1], 1⟩), (1, ⟨[1], 1⟩)], [(0, 0), (1, 1)], 0⟩ 1).length ∧
      ∃ (s1 : StoreState) (nid : ℕ) (s2 : StoreState) (ab : ℕ × ℕ),
        mergeClusters 1
            ⟨2, [[1], [1]], [(0, ⟨10, 0⟩), (1, ⟨11, 0⟩)],
             some [(0, ⟨[1], 1⟩), (1, ⟨[1], 1⟩)], [(0, 0), (1, 1)], 0⟩ 0 1 =
          .ok (s1, nid) ∧
          splitCluster id (fun _ => 0) s1 nid = .ok (s2, ab) ∧
          (getClusterMemories s2 ab.1 ++ getClusterMemories s2 ab.2).Perm
            (getClusterMemories
              ⟨2, [[1], [1]], [(0, ⟨10, 0⟩), (1, ⟨11, 0⟩)],
               some [(0, ⟨[1], 1⟩), (1, ⟨[1], 1⟩)], [(0, 0), (1, 1)], 0⟩ 0 ++
             getClusterMemories
              ⟨2, [[1], [1]], [(0, ⟨10, 0⟩), (1, ⟨11, 0⟩)],
               some [(0, ⟨[1], 1⟩), (1, ⟨[1], 1⟩)], [(0, 0), (1, 1)], 0⟩ 1) :=
  ⟨rfl, by decide, by decide,
    merge_then_split_membership id (fun _ => 0) 1 _ [(0, ⟨[1], 1⟩), (1, ⟨[1], 1⟩)] 0 1
      rfl (by decide) (by decide) (by decide) (by decide) (by decide) (by decide)
      (by decide)⟩

/-! ## The combined write path (`EnhancedVectorStore.addMemory` routing through
the partitioner and the base store, plus the public cluster operations)

`EnhancedVectorStore.addMemory` consults `partitioner.getOptimalPartition`
and then calls the base `VectorStore.addMemory`.  (Its `cache.add` call and
the AI-enrichment calls touch neither the partitioner nor the cluster
structures: the byte-budgeted `MemoryCache` has no `add` method, and the
analytics only annotate the record itself.) -/

structure SysState where
  store : StoreState
  parts : PartitionerState
deriving DecidableEq, Repr

def initSys (t0 : ℤ) : SysState := ⟨initStore t0, ⟨[], 0⟩⟩

/-- One insert through `EnhancedVectorStore.addMemory`: partition routing, then
the base insert (slot allocation, metadata, clustering trigger). -/
def sysInsert (simFn : Vec → Vec → ℚ) (sqrtQ : ℚ → ℚ) (rand : ℕ → ℚ)
    (cfg : PartitionConfig) (now : ℤ) (mem : PMemory) (sys : SysState) : SysState :=
  let pr := getOptimalPartition simFn cfg mem sys.parts
  let ar := addMemory sqrtQ rand now mem sys.store
  ⟨ar.2, pr.2⟩

/-- The operations quantified over by the partition/cluster invariant: insert,
an explicit full clustering pass, merge, split.  Failing merges/splits throw
and leave the state unchanged. -/
inductive SysOp where
  | insert (mem : PMemory) (now : ℤ) (rand : ℕ → ℚ)
  | cluster (numClusters : ℕ) (rand : ℕ → ℚ)
  | merge (c1 c2 : ℕ)
  | split (cid : ℕ) (rand : ℕ → ℚ)

def runSysOp (simFn : Vec → Vec → ℚ) (sqrtQ : ℚ → ℚ) (cfg : PartitionConfig)
    (d : ℕ) (sys : SysState) : SysOp → SysState
  | .insert mem now rand => sysInsert simFn sqrtQ rand cfg now mem sys
  | .cluster k rand => ⟨clusterMemories sqrtQ rand sys.store k, sys.parts⟩
  | .merge c1 c2 =>
    match mergeClusters d sys.store c1 c2 with
    | .ok r => ⟨r.1, sys.parts⟩
    | .error _ => sys
  | .split cid rand =>
    match splitCluster sqrtQ rand sys.store cid with
    | .ok r => ⟨r.1, sys.parts⟩
    | .error _ => sys

def runSysOps (simFn : Vec → Vec → ℚ) (sqrtQ : ℚ → ℚ) (cfg : PartitionConfig)
    (d : ℕ) (sys : SysState) (ops : List SysOp) : SysState :=
  ops.foldl (runSysOp simFn sqrtQ cfg d) sys

/-- How many clusters of the category contain the slot: table entries whose id
the slot is assigned to. -/
def clustersContaining (sys : SysState) (slot : ℕ) : ℕ :=
  ((sys.store.clusterTable.getD []).filter
    (fun q => decide (alookup slot sys.store.clusterAssignments = some q.1))).length

/-- How many partitions record the given record id as a member (partition
member sets hold record ids, which the insert path takes from
`memory.id`). -/
def partitionsContaining (sys : SysState) (mid : ℤ) : ℕ :=
  (sys.parts.partitions.filter (fun p => decide (mid ∈ p.members))).length

/-- The record ids of the insert operations of a run, in order. -/
def insertIds : List SysOp → List ℤ
  | [] => []
  | .insert mem _ _ :: rest => mem.mid :: insertIds rest
  | .cluster _ _ :: rest => insertIds rest
  | .merge _ _ :: rest => insertIds rest
  | .split _ _ :: rest => insertIds rest

theorem filter_length_le_one {α : Type} {l : List α} {f : α → Bool}
    (h : l.Pairwise (fun p q => ¬(f p = true ∧ f q = true))) :
    (l.filter f).length ≤ 1 := by
  induction l with
  | nil => simp
  | cons p rest ih =>
    rcases List.pairwise_cons.mp h with ⟨hp, hrest⟩
    by_cases hf : f p = true
    · rw [List.filter_cons, if_pos hf]
      have hnil : rest.filter f = [] := by
        rw [List.filter_eq_nil_iff]
        intro q hq hfq
        exact hp q hq ⟨hf, hfq⟩
      rw [hnil]
      simp
    · rw [List.filter_cons, if_neg hf]
      exact ih hrest

theorem keysOf_range_map {β : Type} (n : ℕ) (f : ℕ → β) :
    keysOf ((List.range n).map (fun cid => (cid, f cid))) = List.range n := by
  simp only [keysOf, List.map_map]
  have : (Prod.fst ∘ fun cid : ℕ => (cid, f cid)) = id := rfl
  rw [this, List.map_id]

theorem keysOf_map_value {α β : Type} (l : List (ℕ × α)) (g : ℕ × α → β) :
    keysOf (l.map (fun q => (q.1, g q))) = keysOf l := by
  simp only [keysOf, List.map_map]
  rfl

theorem nodup_table_clusterMemories (sqrtQ : ℚ → ℚ) (rand : ℕ → ℚ) (s : StoreState)
    (k : ℕ) (hnd : (keysOf (s.clusterTable.getD [])).Nodup) :
    (keysOf ((clusterMemories sqrtQ rand s k).clusterTable.getD [])).Nodup := by
  unfold clusterMemories
  by_cases hz : (List.map (fun i => s.slotVectors.getD i [])
      (List.range s.count)).length = 0
  · rw [if_pos hz]
    exact hnd
  · rw [if_neg hz]
    show (keysOf ((List.range _).map (fun cid => (cid, _)))).Nodup
    rw [keysOf_range_map]
    exact List.nodup_range _



/-- The well-formedness invariant threaded through an operation sequence:
duplicate-free cluster-table keys, pairwise-disjoint partition member sets,
and no current member id among the record ids still to be inserted. -/
def sysInv (sys : SysState) (future : List ℤ) : Prop :=
  (keysOf (sys.store.clusterTable.getD [])).Nodup ∧
    sys.parts.partitions.Pairwise (fun p q => ∀ m, m ∈ p.members → m ∉ q.members) ∧
    ∀ p ∈ sys.parts.partitions, ∀ m ∈ p.members, m ∉ future

theorem nodup_table_updateClusters (sqrtQ : ℚ → ℚ) (rand : ℕ → ℚ) (now : ℤ)
    (s : StoreState) (hnd : (keysOf (s.clusterTable.getD [])).Nodup) :
    (keysOf ((updateClusters sqrtQ rand now s).clusterTable.getD [])).Nodup := by
  unfold updateClusters
  by_cases hz : ((s.metadata.filter
      (fun q => decide (s.lastClusterUpdate < q.2.timestamp))).map Prod.fst).length = 0
  · rw [if_pos hz]
    exact hnd
  · rw [if_neg hz]
    show (keysOf ((incrementalClustering sqrtQ rand s _ (s.clusterTable.getD []) _).clusterTable.getD [])).Nodup
    unfold incrementalClustering
    by_cases ht : 0 < (s.clusterTable.getD []).length
    · rw [if_pos ht]
      show (keysOf ((s.clusterTable.getD []).map (fun q => (q.1, _)))).Nodup
      rw [keysOf_map_value]
      exact hnd
    · rw [if_neg ht]
      exact nodup_table_clusterMemories sqrtQ rand s _ hnd

theorem nodup_table_checkClusterUpdate (sqrtQ : ℚ → ℚ) (rand : ℕ → ℚ) (now : ℤ)
    (s : StoreState) (hnd : (keysOf (s.clusterTable.getD [])).Nodup) :
    (keysOf ((checkClusterUpdate sqrtQ rand now s).clusterTable.getD [])).Nodup := by
  unfold checkClusterUpdate
  by_cases hc : 100 ≤ getPendingUpdateCount s ∨
      (24 * 60 * 60 * 1000 : ℤ) ≤ now - s.lastClusterUpdate ∨
      (1 / 10 : ℚ) ≤ (getPendingUpdateCount s : ℚ) / (s.count : ℚ)
  · rw [if_pos hc]
    exact nodup_table_updateClusters sqrtQ rand now s hnd
  · rw [if_neg hc]
    exact hnd

theorem nodup_table_addMemory (sqrtQ : ℚ → ℚ) (rand : ℕ → ℚ) (now : ℤ)
    (mem : PMemory) (s : StoreState)
    (hnd : (keysOf (s.clusterTable.getD [])).Nodup) :
    (keysOf ((addMemory sqrtQ rand now mem s).2.clusterTable.getD [])).Nodup :=
  nodup_table_checkClusterUpdate sqrtQ rand now _ hnd

theorem nodup_table_merge {d : ℕ} {s : StoreState} {c1 c2 : ℕ} {r : StoreState × ℕ}
    (h : mergeClusters d s c1 c2 = .ok r)
    (hnd : (keysOf (s.clusterTable.getD [])).Nodup) :
    (keysOf (r.1.clusterTable.getD [])).Nodup := by
  unfold mergeClusters at h
  cases htab : s.clusterTable with
  | none =>
    simp only [htab] at h
    exact absurd h (by simp)
  | some table =>
    simp only [htab] at h
    rw [htab] at hnd
    split at h
    · cases h
      exact nodup_keys_aset _ _ (nodup_keys_aerase _ (nodup_keys_aerase _ hnd))
    · cases h

theorem nodup_table_split {sqrtQ : ℚ → ℚ} {rand : ℕ → ℚ} {s : StoreState} {cid : ℕ}
    {r : StoreState × (ℕ × ℕ)} (h : splitCluster sqrtQ rand s cid = .ok r)
    (hnd : (keysOf (s.clusterTable.getD [])).Nodup) :
    (keysOf (r.1.clusterTable.getD [])).Nodup := by
  unfold splitCluster at h
  cases htab : s.clusterTable with
  | none =>
    simp only [htab] at h
    exact absurd h (by simp)
  | some table =>
    simp only [htab] at h
    rw [htab] at hnd
    by_cases hsmall : (getClusterMemories s cid).length < 2
    · rw [if_pos hsmall] at h
      cases h
    · rw [if_neg hsmall] at h
      cases h
      exact nodup_keys_aset _ _ (nodup_keys_aset _ _ (nodup_keys_aerase _ hnd))

theorem parts_getOptimalPartition (simFn : Vec → Vec → ℚ) (cfg : PartitionConfig)
    (mem : PMemory) (ps : PartitionerState) :
    (getOptimalPartition simFn cfg mem ps).2.partitions = ps.partitions ∨
      (getOptimalPartition simFn cfg mem ps).2.partitions =
        ps.partitions ++ [⟨ps.nextId, mem.vector, [mem.mid], mem.mtype⟩] := by
  unfold getOptimalPartition
  cases hb : (findBestPartition simFn cfg mem.mtype mem.vector ps.partitions).1 with
  | some pid => exact Or.inl rfl
  | none => exact Or.inr rfl

theorem sysInv_insert (simFn : Vec → Vec → ℚ) (sqrtQ : ℚ → ℚ) (rand : ℕ → ℚ)
    (cfg : PartitionConfig) (now : ℤ) (mem : PMemory) (sys : SysState)
    (future : List ℤ) (hmid : mem.mid ∉ future)
    (hinv : sysInv sys (mem.mid :: future)) :
    sysInv (sysInsert simFn sqrtQ rand cfg now mem sys) future := by
  obtain ⟨h1, h2, h3⟩ := hinv
  refine ⟨nodup_table_addMemory sqrtQ rand now mem sys.store h1, ?_, ?_⟩ <;>
    rcases parts_getOptimalPartition simFn cfg mem sys.parts with hp | hp <;>
      rw [show (sysInsert simFn sqrtQ rand cfg now mem sys).parts =
        (getOptimalPartition simFn cfg mem sys.parts).2 from rfl, hp]
  · exact h2
  · refine List.pairwise_append.mpr ⟨h2, List.pairwise_singleton _ _, ?_⟩
    intro p hp' q hq m hm
    have hq' : q = ⟨sys.parts.nextId, mem.vector, [mem.mid], mem.mtype⟩ := by
      simpa using hq
    subst hq'
    have := h3 p hp' m hm
    simp only [List.mem_cons] at this
    push_neg at this
    simp [this.1]
  · intro p hp' m hm
    have := h3 p hp' m hm
    simp only [List.mem_cons] at this
    push_neg at this
    exact this.2
  · intro p hp' m hm
    rcases List.mem_append.mp hp' with hin | hin
    · have := h3 p hin m hm
      simp only [List.mem_cons] at this
      push_neg at this
      exact this.2
    · have hq' : p = ⟨sys.parts.nextId, mem.vector, [mem.mid], mem.mtype⟩ := by
        simpa using hin
      subst hq'
      have hm' : m = mem.mid := by simpa using hm
      subst hm'
      exact hmid



theorem sysInv_runSysOps (simFn : Vec → Vec → ℚ) (sqrtQ : ℚ → ℚ)
    (cfg : PartitionConfig) (d : ℕ) :
    ∀ (ops : List SysOp) (sys : SysState),
      (insertIds ops).Nodup → sysInv sys (insertIds ops) →
      sysInv (runSysOps simFn sqrtQ cfg d sys ops) []
  | [], _, _, hinv => hinv
  | .insert mem now rand :: ops, sys, hnd, hinv => by
    have hnd' := List.nodup_cons.mp (by simpa [insertIds] using hnd)
    exact sysInv_runSysOps simFn sqrtQ cfg d ops _ hnd'.2
      (sysInv_insert simFn sqrtQ rand cfg now mem sys _ hnd'.1
        (by simpa [insertIds] using hinv))
  | .cluster k rand :: ops, sys, hnd, hinv => by
    refine sysInv_runSysOps simFn sqrtQ cfg d ops _ (by simpa [insertIds] using hnd) ?_
    obtain ⟨h1, h2, h3⟩ := hinv
    exact ⟨nodup_table_clusterMemories sqrtQ rand sys.store k h1, h2,
      by simpa [insertIds] using h3⟩
  | .merge c1 c2 :: ops, sys, hnd, hinv => by
    refine sysInv_runSysOps simFn sqrtQ cfg d ops _ (by simpa [insertIds] using hnd) ?_
    obtain ⟨h1, h2, h3⟩ := hinv
    show sysInv (match mergeClusters d sys.store c1 c2 with
      | .ok r => ⟨r.1, sys.parts⟩
      | .error _ => sys) (insertIds ops)
    cases hm : mergeClusters d sys.store c1 c2 with
    | ok r => exact ⟨nodup_table_merge hm h1, h2, by simpa [insertIds] using h3⟩
    | error e => exact ⟨h1, h2, by simpa [insertIds] using h3⟩
  | .split cid rand :: ops, sys, hnd, hinv => by
    refine sysInv_runSysOps simFn sqrtQ cfg d ops _ (by simpa [insertIds] using hnd) ?_
    obtain ⟨h1, h2, h3⟩ := hinv
    show sysInv (match splitCluster sqrtQ rand sys.store cid with
      | .ok r => ⟨r.1, sys.parts⟩
      | .error _ => sys) (insertIds ops)
    cases hm : splitCluster sqrtQ rand sys.store cid with
    | ok r => exact ⟨nodup_table_split hm h1, h2, by simpa [insertIds] using h3⟩
    | error e => exact ⟨h1, h2, by simpa [insertIds] using h3⟩

/-- C1 (corrected), the amended claim.  For every category, any operation
sequence of inserts (with pairwise-distinct record ids), clustering passes,
merges and splits, and any quiescent point, every live slot of the category
is assigned to *at most* one cluster and its record id belongs to *at most*
one partition.  "Exactly one" fails on both counts: a slot routed to an
existing partition is never recorded in any partition's member set, and a
slot inserted without firing the clustering trigger stays in no cluster
until the next pass. -/
theorem slots_at_most_one_cluster_and_partition (simFn : Vec → Vec → ℚ)
    (sqrtQ : ℚ → ℚ) (cfg : PartitionConfig) (d : ℕ) (t0 : ℤ) (ops : List SysOp)
    (hids : (insertIds ops).Nodup) :
    ∀ (slot : ℕ) (mid : ℤ),
      clustersContaining (runSysOps simFn sqrtQ cfg d (initSys t0) ops) slot ≤ 1 ∧
        partitionsContaining (runSysOps simFn sqrtQ cfg d (initSys t0) ops) mid ≤ 1 := by
  have hinv := sysInv_runSysOps simFn sqrtQ cfg d ops (initSys t0) hids
    ⟨by simp [initSys, initStore], by simp [initSys], by simp [initSys]⟩
  obtain ⟨h1, h2, _⟩ := hinv
  intro slot mid
  constructor
  · apply filter_length_le_one
    have hpw : ((runSysOps simFn sqrtQ cfg d (initSys t0) ops).store.clusterTable.getD
        []).Pairwise (fun q1 q2 => q1.1 ≠ q2.1) := by
      have := h1
      unfold keysOf at this
      rw [List.Nodup, List.pairwise_map] at this
      exact this
    refine hpw.imp ?_
    intro q1 q2 hne hcon
    obtain ⟨ha, hb⟩ := hcon
    rw [decide_eq_true_eq] at ha hb
    rw [ha] at hb
    exact hne (Option.some_injective _ hb)
  · apply filter_length_le_one
    refine h2.imp ?_
    intro p q hdisj hcon
    obtain ⟨ha, hb⟩ := hcon
    rw [decide_eq_true_eq] at ha hb
    exact hdisj mid ha hb

/-- C1 (corrected), counterexample to the claim as stated.  Two records with
identical unit vectors inserted in the same millisecond as construction (so
`timestamp > lastClusterUpdate` fails and no clustering pass fires — the
trigger requires pending inserts, elapsed time, or a pending ratio, none of
which hold yet): the first insert seeds partition 0 with record 0; the
second is routed to partition 0 by `getOptimalPartition`, which *never adds
the record to the chosen partition's member set*.  At the resulting
quiescent point slot 1 is live but belongs to zero partitions — and, no
clustering pass having run, to zero clusters — refuting "exactly one cluster
and exactly one partition". -/
theorem slot_in_no_partition_counterexample :
    (runSysOps (calculateSimilarity id 2) id ⟨10000, 1000, 7/10, 1/5⟩ 2 (initSys 0)
        [.insert ⟨0, 0, [1, 0]⟩ 0 (fun _ => 0),
         .insert ⟨1, 0, [1, 0]⟩ 0 (fun _ => 0)]).store.count = 2 ∧
      partitionsContaining
        (runSysOps (calculateSimilarity id 2) id ⟨10000, 1000, 7/10, 1/5⟩ 2 (initSys 0)
          [.insert ⟨0, 0, [1, 0]⟩ 0 (fun _ => 0),
           .insert ⟨1, 0, [1, 0]⟩ 0 (fun _ => 0)]) 1 = 0 ∧
      clustersContaining
        (runSysOps (calculateSimilarity id 2) id ⟨10000, 1000, 7/10, 1/5⟩ 2 (initSys 0)
          [.insert ⟨0, 0, [1, 0]⟩ 0 (fun _ => 0),
           .insert ⟨1, 0, [1, 0]⟩ 0 (fun _ => 0)]) 1 = 0 := by
  refine ⟨?_, ?_, ?_⟩ <;>
    norm_num [runSysOps, runSysOp, sysInsert, getOptimalPartition, findBestPartition,
      betterSim, createNewPartition, addMemory, checkClusterUpdate,
      getPendingUpdateCount, calculateSimilarity, dotProduct, normSq, vecGet,
      aset, alookup, keysOf, initSys, initStore, partitionsContaining,
      clustersContaining, List.filter, List.range_succ]

theorem slots_at_most_one_witness :
    (insertIds [.insert ⟨0, 0, [1, 0]⟩ 0 (fun _ => 0),
        .insert ⟨2, 0, [0, 1]⟩ 1 (fun _ => 0), .cluster 2 (fun _ => 0),
        .split 0 (fun _ => 0)]).Nodup ∧
      (clustersContaining
          (runSysOps (calculateSimilarity id 2) id ⟨10000, 1000, 7/10, 1/5⟩ 2
            (initSys 0)
            [.insert ⟨0, 0, [1, 0]⟩ 0 (fun _ => 0),
             .insert ⟨2, 0, [0, 1]⟩ 1 (fun _ => 0), .cluster 2 (fun _ => 0),
             .split 0 (fun _ => 0)]) 0 ≤ 1 ∧
        partitionsContaining
          (runSysOps (calculateSimilarity id 2) id ⟨10000, 1000, 7/10, 1/5⟩ 2
            (initSys 0)
            [.insert ⟨0, 0, [1, 0]⟩ 0 (fun _ => 0),
             .insert ⟨2, 0, [0, 1]⟩ 1 (fun _ => 0), .cluster 2 (fun _ => 0),
             .split 0 (fun _ => 0)]) 0 ≤ 1) :=
  ⟨by decide,
    slots_at_most_one_cluster_and_partition (calculateSimilarity id 2) id
      ⟨10000, 1000, 7/10, 1/5⟩ 2 0
      [.insert ⟨0, 0, [1, 0]⟩ 0 (fun _ => 0),
       .insert ⟨2, 0, [0, 1]⟩ 1 (fun _ => 0), .cluster 2 (fun _ => 0),
       .split 0 (fun _ => 0)] (by decide) 0 0⟩

end MemVis
